import Mathlib

/-!
# Push-style ID generator (`stringid`, file `push.go`)

A shallow embedding of `PushGenerator`, `NewPushGenerator` and
`PushGenerator.Generate`, followed by theorems about them.

Modelling conventions

* Go `int` / `int64` values are `Int`.  The only arithmetic that can leave the
  64-bit range is `pg.last[i]++`; it is wrapped explicitly (`wrapInt`).  `%` and
  `/` are Go's truncating operators (`Int.tmod`, `Int.tdiv`).
* A run-time panic (index out of range, division by zero, negative `make`
  length) is the result `none`.
* A `[]byte` / `string` is a `List Char`; every byte the program handles is
  either the initial zero byte or an ASCII character of `pushChars`, for which
  the byte and the character coincide.  Lexicographic byte comparison of two
  strings is `List.Lex (· < ·)`.
* The mutex `mu` is not modelled: a call of `Generate` is one atomic step.
  The wall clock is an input: `Generate pg clock` is the call during which
  `time.Now().UTC().UnixNano() / 1e6` evaluates to `clock`.
* The random source `r` is only read by the constructor; it is modelled as the
  stream of the results of its successive `Intn(64)` calls.
* A finite `float64` is a pair `Fl` of an integer mantissa and a binary
  exponent, of value `m * 2 ^ e`.  Every arithmetic operation computes the exact
  result and rounds it to 53 significant bits, ties to even, as IEEE 754
  prescribes; the exponent is unbounded, which is the behaviour of `float64`
  as long as no result overflows or is subnormal (for an `int64` argument the
  non-zero intermediate results of `math.Log` have magnitudes between
  `2 ^ -300` and `2 ^ 64`).
  `math.Log` is the portable implementation of the Go standard library
  (`src/math/log.go`), evaluated in the order written there, without fused
  multiply-add.
-/

namespace Stringid

/-! ## Data model -/

/-- The constant `pushChars` (push.go, line 14). -/
def pushChars : String :=
  "-0123456789ABCDEFGHIJKLMNOPQRSTUVWXYZ_abcdefghijklmnopqrstuvwxyz"

/-- The struct `PushGenerator` (push.go, lines 19-43) without the mutex and the
random source.  `ret` is a `*time.Duration`: `none` is `nil`, `some d` a
duration of `d` nanoseconds. -/
structure PushGenerator where
  seed : Int
  stamp : Int
  last : List Int
  ret : Option Int
  _timeLength : Int
  _lastLength : Int
  deriving DecidableEq, Repr

/-- Go's `time.Duration.Milliseconds`: `int64(d) / 1e6`, truncating. -/
def Milliseconds (d : Int) : Int := Int.tdiv d 1000000

/-- Two's-complement wrap-around of a 64-bit Go `int`. -/
def wrapInt (x : Int) : Int :=
  (x + 9223372036854775808) % 18446744073709551616 - 9223372036854775808

/-- Slice read `xs[i]`; `none` when the index is out of range. -/
def getAt {α : Type} (xs : List α) (i : Int) : Option α :=
  if 0 ≤ i then xs[i.toNat]? else none

/-- Slice write `xs[i] = v`; `none` when the index is out of range. -/
def setAt {α : Type} (xs : List α) (i : Int) (v : α) : Option (List α) :=
  if 0 ≤ i ∧ i < (xs.length : Int) then some (xs.set i.toNat v) else none

/-- The byte `pushChars[k]`; `none` when the index is out of range. -/
def pushAt (k : Int) : Option Char := getAt pushChars.data k

/-- The zero byte a fresh `[]byte` is filled with. -/
def zeroByte : Char := Char.ofNat 0

/-- The allocation `make([]byte, n)`: `n` zero bytes, a panic for negative `n`. -/
def makeBytes (n : Int) : Option (List Char) :=
  if 0 ≤ n then some (List.replicate n.toNat zeroByte) else none

/-! ## Construction -/

/-- A finite `float64`: the number `m * 2 ^ e`. -/
structure Fl where
  m : Int
  e : Int
  deriving DecidableEq

/-- The number of binary digits of `n`, by repeated halving with `fuel` steps. -/
def bitLen : Nat → Nat → Nat
  | 0, _ => 0
  | fuel + 1, n => if n = 0 then 0 else bitLen fuel (n / 2) + 1

/-- The number of binary digits of `n` (0 for 0). -/
def bits (n : Nat) : Nat := bitLen n n

/-- The magnitude `n` with the sign of `m`. -/
def withSign (m : Int) (n : Nat) : Int := if m < 0 then -(n : Int) else (n : Int)

/-- Rounding of the exact value `m * 2 ^ e` to a `float64`: a mantissa of more
than 53 bits is cut to its 53 leading bits, to nearest, a tie to the even
neighbour. -/
def roundTo53 (m e : Int) : Fl :=
  if m.natAbs = 0 then ⟨0, 0⟩
  else if bits m.natAbs ≤ 53 then ⟨m, e⟩
  else
    let sh := bits m.natAbs - 53
    let qh := m.natAbs / 2 ^ sh
    let r := m.natAbs % 2 ^ sh
    let half := 2 ^ (sh - 1)
    ⟨withSign m (if half < r ∨ (r = half ∧ qh % 2 = 1) then qh + 1 else qh), e + sh⟩

/-- The integer `m * 2 ^ k` for `k ≥ 0`. -/
def shl (m : Int) (k : Int) : Int := m * ((2 ^ k.toNat : Nat) : Int)

/-- The `float64` sum `a + b`. -/
def fadd (a b : Fl) : Fl :=
  roundTo53 (shl a.m (a.e - min a.e b.e) + shl b.m (b.e - min a.e b.e)) (min a.e b.e)

/-- The `float64` difference `a - b`. -/
def fsub (a b : Fl) : Fl :=
  roundTo53 (shl a.m (a.e - min a.e b.e) - shl b.m (b.e - min a.e b.e)) (min a.e b.e)

/-- The `float64` product `a * b`. -/
def fmul (a b : Fl) : Fl := roundTo53 (a.m * b.m) (a.e + b.e)

/-- The number of bits the dividend is shifted by so that the integer quotient
has at least 55 bits. -/
def divShift (a b : Fl) : Nat := ((bits b.m.natAbs : Int) + 55 - (bits a.m.natAbs : Int)).toNat

/-- The `float64` quotient `a / b` for `b ≠ 0`: the integer quotient of the
shifted mantissas, with one more bit that records a non-zero remainder, is
rounded. -/
def fdiv (a b : Fl) : Fl :=
  roundTo53
    (withSign a.m 1 * withSign b.m 1 *
      ((2 * (a.m.natAbs * 2 ^ divShift a b / b.m.natAbs)
        + (if a.m.natAbs * 2 ^ divShift a b % b.m.natAbs = 0 then 0 else 1) : Nat) : Int))
    (a.e - b.e - (divShift a b : Int) - 1)

/-- The `float64` comparison `a < b`. -/
def flt (a b : Fl) : Bool :=
  decide (shl a.m (a.e - min a.e b.e) < shl b.m (b.e - min a.e b.e))

/-- The conversion `float64(n)` of an integer. -/
def ofInt (n : Int) : Fl := roundTo53 n 0

/-- Go's `math.Frexp` on a finite argument: `x = frac * 2 ^ exp` with
`1/2 ≤ |frac| < 1`, and `(x, 0)` for zero. -/
def mathFrexp (x : Fl) : Fl × Int :=
  if x.m = 0 then (x, 0)
  else (⟨x.m, -(bits x.m.natAbs : Int)⟩, (bits x.m.natAbs : Int) + x.e)

/-- The conversion `int(math.Ceil(x))` of a finite `x` within the range of
`int`: the least integer that is not below `x`. -/
def mathCeil (x : Fl) : Int :=
  if 0 ≤ x.e then shl x.m x.e else -((-x.m) / ((2 ^ (-x.e).toNat : Nat) : Int))

/-- The constant `Ln2Hi = 6.93147180369123816490e-01` of `math.log`
(bits `3fe62e42 fee00000`). -/
def Ln2Hi : Fl := ⟨0x162e42fee00000, -53⟩

/-- The constant `Ln2Lo = 1.90821492927058770002e-10` (bits `3dea39ef 35793c76`). -/
def Ln2Lo : Fl := ⟨0x1a39ef35793c76, -85⟩

/-- The constant `L1 = 6.666666666666735130e-01` (bits `3FE55555 55555593`). -/
def L1 : Fl := ⟨0x15555555555593, -53⟩

/-- The constant `L2 = 3.999999999940941908e-01` (bits `3FD99999 9997FA04`). -/
def L2 : Fl := ⟨0x1999999997fa04, -54⟩

/-- The constant `L3 = 2.857142874366239149e-01` (bits `3FD24924 94229359`). -/
def L3 : Fl := ⟨0x12492494229359, -54⟩

/-- The constant `L4 = 2.222219843214978396e-01` (bits `3FCC71C5 1D8E78AF`). -/
def L4 : Fl := ⟨0x1c71c51d8e78af, -55⟩

/-- The constant `L5 = 1.818357216161805012e-01` (bits `3FC74664 96CB03DE`). -/
def L5 : Fl := ⟨0x17466496cb03de, -55⟩

/-- The constant `L6 = 1.531383769920937332e-01` (bits `3FC39A09 D078C69F`). -/
def L6 : Fl := ⟨0x139a09d078c69f, -55⟩

/-- The constant `L7 = 1.479819860511658591e-01` (bits `3FC2F112 DF3E5244`). -/
def L7 : Fl := ⟨0x12f112df3e5244, -55⟩

/-- The constant `Sqrt2 / 2` as a `float64` (bits `3FE6A09E 667F3BCD`). -/
def SqrtHalf : Fl := ⟨0x16a09e667f3bcd, -53⟩

/-- The reduction step of `math.log`:
`f1, ki := Frexp(x); if f1 < Sqrt2/2 { f1 *= 2; ki-- }`. -/
def logReduce (x : Fl) : Fl × Int :=
  if flt (mathFrexp x).1 SqrtHalf then (fmul (mathFrexp x).1 ⟨2, 0⟩, (mathFrexp x).2 - 1)
  else mathFrexp x

/-- The line `s := f / (2 + f)` of `math.log`. -/
def logS (f : Fl) : Fl := fdiv f (fadd ⟨2, 0⟩ f)

/-- The line `t1 := s2 * (L1 + s4*(L3+s4*(L5+s4*L7)))` of `math.log`. -/
def logT1 (s2 s4 : Fl) : Fl :=
  fmul s2 (fadd L1 (fmul s4 (fadd L3 (fmul s4 (fadd L5 (fmul s4 L7))))))

/-- The line `t2 := s4 * (L2 + s4*(L4+s4*L6))` of `math.log`. -/
def logT2 (s4 : Fl) : Fl := fmul s4 (fadd L2 (fmul s4 (fadd L4 (fmul s4 L6))))

/-- The lines `s2 := s * s; s4 := s2 * s2; ...; R := t1 + t2` of `math.log`. -/
def logR (s : Fl) : Fl :=
  fadd (logT1 (fmul s s) (fmul (fmul s s) (fmul s s))) (logT2 (fmul (fmul s s) (fmul s s)))

/-- The line `hfsq := 0.5 * f * f` of `math.log`. -/
def logHfsq (f : Fl) : Fl := fmul (fmul ⟨1, -1⟩ f) f

/-- The result `k*Ln2Hi - ((hfsq - (s*(hfsq+R) + k*Ln2Lo)) - f)` of `math.log`. -/
def logKernel (f k : Fl) : Fl :=
  fsub (fmul k Ln2Hi)
    (fsub (fsub (logHfsq f)
      (fadd (fmul (logS f) (fadd (logHfsq f) (logR (logS f)))) (fmul k Ln2Lo))) f)

/-- Go's `math.Log` on a finite positive argument: the reduction, then
`f := f1 - 1; k := float64(ki)` and the result expression. -/
def mathLog (x : Fl) : Fl :=
  logKernel (fsub (logReduce x).1 ⟨1, 0⟩) (ofInt (logReduce x).2)

/-- The expression `int(math.Ceil(math.Log(float64(ms)) / math.Log(float64(2))))`
of push.go line 58, evaluated in `float64`.  For `ms ≤ 0` the logarithm is
`-Inf` or `NaN`, whose conversion to `int` Go leaves to the implementation; the
value used here is the one of amd64 (the least `int64`). -/
def ceilLog2 (ms : Int) : Int :=
  if 1 ≤ ms then mathCeil (fdiv (mathLog (ofInt ms)) (mathLog (ofInt 2)))
  else -9223372036854775808

/-- The timestamp width computed by `NewPushGenerator` (push.go, lines 54-61). -/
def timeLengthOf (ret : Option Int) : Int :=
  match ret with
  | some d => Int.tdiv (ceilLog2 (Milliseconds d)) 6
  | none => 8

/-- The constructor `NewPushGenerator(r, ret)` (push.go, lines 46-78).
`r` is the caller's random source (`none` for `nil`), given as the stream of
its `Intn(64)` results; `nowNano` is what `time.Now().UnixNano()` returns
when it is consulted and `newRand seed` is the source
`rand.New(rand.NewSource(seed))`. -/
def NewPushGenerator (r : Option (Nat → Int)) (ret : Option Int)
    (nowNano : Int) (newRand : Int → Nat → Int) : PushGenerator :=
  let seed : Int := match r with
    | none => nowNano
    | some _ => 0
  let r : Nat → Int := match r with
    | none => newRand seed
    | some src => src
  let timeLength : Int := timeLengthOf ret
  let lastLength : Int := 6
  { seed := seed
    stamp := 0
    last := (List.range lastLength.toNat).map r
    ret := ret
    _timeLength := timeLength
    _lastLength := lastLength }

/-! ## Generate -/

/-- The timestamp bucket: lines 93-96 of `Generate`.  `clock` is the value of
`time.Now().UTC().UnixNano() / 1e6`; with a retention it is reduced modulo the
retention's milliseconds (a panic when those are zero). -/
def bucket (pg : PushGenerator) (clock : Int) : Option Int :=
  match pg.ret with
  | none => some clock
  | some d => if Milliseconds d = 0 then none else some (Int.tmod clock (Milliseconds d))

/-- The carry loop of lines 98-104, `n` iterations before `i` reaches
`_lastLength`:
`pg.last[i]++; if pg.last[i] < 64 { break }; pg.last[i] = 0`. -/
def incLoop : Nat → Int → List Int → Option (List Int)
  | 0, _, last => some last
  | n + 1, i, last => do
    let v ← getAt last i
    let last1 ← setAt last i (wrapInt (v + 1))
    if wrapInt (v + 1) < 64 then
      some last1
    else do
      let last2 ← setAt last1 i 0
      incLoop n (i + 1) last2

/-- The loop of lines 109-111, `n` iterations before `i` reaches `_lastLength`:
`id[len(id)-1-i] = pushChars[pg.last[i]%64]`. -/
def setLast (last : List Int) : Nat → Int → List Char → Option (List Char)
  | 0, _, id => some id
  | n + 1, i, id => do
    let d ← getAt last i
    let c ← pushAt (Int.tmod d 64)
    let id1 ← setAt id ((id.length : Int) - 1 - i) c
    setLast last n (i + 1) id1

/-- The loop of lines 115-118, `n` iterations before `i` drops below zero:
`id[i] = pushChars[int(now%64)]; now /= 64`. -/
def setTime : Nat → Int → Int → List Char → Option (List Char)
  | 0, _, _, id => some id
  | n + 1, i, now, id => do
    let c ← pushAt (Int.tmod now 64)
    let id1 ← setAt id i c
    setTime n (i - 1) (Int.tdiv now 64) id1

/-- The entropy vector after lines 97-105: incremented by the carry loop when
the stored bucket equals `now`, untouched otherwise. -/
def tieBreak (pg : PushGenerator) (now : Int) : Option (List Int) :=
  if pg.stamp = now then incLoop pg._lastLength.toNat 0 pg.last else some pg.last

/-- The method `PushGenerator.Generate` (push.go, lines 86-121): the returned
string and the generator state after the call, or `none` for a panic. -/
def Generate (pg : PushGenerator) (clock : Int) : Option (List Char × PushGenerator) := do
  let id ← makeBytes (pg._timeLength + pg._lastLength)
  let now ← bucket pg clock
  let last ← tieBreak pg now
  let pg1 : PushGenerator := { pg with stamp := now, last := last }
  let id1 ← setLast pg1.last pg1._lastLength.toNat 0 id
  let id2 ← setTime (pg1._timeLength + 1).toNat pg1._timeLength now id1
  some (id2, pg1)

/-- The method `PushGenerator.String` (push.go, lines 81-83):
`strconv.FormatInt(pg.seed, 10)`, the base-10 rendering of the seed. -/
def PushGenerator.String (pg : PushGenerator) : String := Int.repr pg.seed

/-- Successive calls of `Generate`, one per clock reading, as the loop of
`testMany` makes them (push_test.go, lines 75-95): the IDs in call order and the
final state. -/
def generateAll : PushGenerator → List Int → Option (List (List Char) × PushGenerator)
  | pg, [] => some ([], pg)
  | pg, t :: ts => do
    let (id, pg1) ← Generate pg t
    let (ids, pg2) ← generateAll pg1 ts
    some (id :: ids, pg2)

/-! ## Specification vocabulary -/

/-- The alphabet character of the digit `d` (the zero byte outside the alphabet). -/
def pushChar (d : Nat) : Char := pushChars.data.getD d zeroByte

/-- The `k` low base-64 digits of `n`, most significant first. -/
def beDigits : Nat → Nat → List Nat
  | 0, _ => []
  | k + 1, n => beDigits k (n / 64) ++ [n % 64]

/-- Every entropy digit lies in `[0, 64)`. -/
def DigitsOk (last : List Int) : Prop := ∀ d ∈ last, 0 ≤ d ∧ d < 64

/-- The value of an entropy vector read as a little-endian base-64 number:
`sum (last[i] * 64 ^ i)`. -/
def leVal : List Int → Int
  | [] => 0
  | d :: ds => d + 64 * leVal ds

/-- The little-endian base-64 digit vector of width `n` of the number `v`
(taken modulo `64 ^ n`). -/
def ofVal : Nat → Nat → List Int
  | 0, _ => []
  | n + 1, v => ((v % 64 : Nat) : Int) :: ofVal n (v / 64)

/-- Increment of a little-endian base-64 digit vector with carry, the carry out
of the last digit dropped. -/
def incList : List Int → List Int
  | [] => []
  | d :: ds => if d + 1 < 64 then (d + 1) :: ds else 0 :: incList ds

/-- The entropy vector `Generate` leaves behind when the call's bucket is `now`:
incremented when the bucket is the stored one, unchanged otherwise. -/
def nextLast (pg : PushGenerator) (now : Int) : List Int :=
  if pg.stamp = now then incList pg.last else pg.last

/-- The string `Generate` builds for timestamp width `tl`, bucket `now` and
(updated) entropy vector `last`: the `tl + 1` low base-64 digits of `now`, then
the entropy digits below the most significant one, most significant first. -/
def idOf (tl : Nat) (now : Nat) (last : List Int) : List Char :=
  (beDigits (tl + 1) now).map pushChar ++ (last.reverse.drop 1).map (fun d => pushChar d.toNat)

/-- A generator state as the constructor builds them and `Generate` keeps
them: non-negative timestamp width, at least one entropy digit, an entropy vector
of `_lastLength` digits, each in `[0, 64)`. -/
structure WellFormed (pg : PushGenerator) : Prop where
  time_nonneg : 0 ≤ pg._timeLength
  last_pos : 0 < pg._lastLength
  last_len : (pg.last.length : Int) = pg._lastLength
  digits : DigitsOk pg.last

/-- The rational number a `float64` stands for. -/
def val (x : Fl) : ℚ := (x.m : ℚ) * (2 : ℚ) ^ x.e

/-- The relative error bound used for one rounded operation, `2 ^ -52`. -/
def eps : ℚ := 1 / 2 ^ 52

/-- The `float64` `x` is the number `q` up to a relative error of `eps`. -/
def Approx (x : Fl) (q : ℚ) : Prop := |val x - q| ≤ eps * |q|

/-! ## Sample states -/

/-- A default-width generator (`NewPushGenerator(r, nil)`) whose random source
drew the digits 63, 63, 63, 63, 63, 0. -/
def sampleCarry : PushGenerator :=
  { seed := 0, stamp := 0, last := [63, 63, 63, 63, 63, 0], ret := none,
    _timeLength := 8, _lastLength := 6 }

/-- A clock reading of November 2024, in milliseconds. -/
def sampleClock : Int := 1730716800000

/-- A default-width generator whose last call was made at `sampleClock` and
left the entropy digits 0, 0, 0, 0, 0, 0. -/
def sampleZero : PushGenerator :=
  { seed := 0, stamp := sampleClock, last := [0, 0, 0, 0, 0, 0], ret := none,
    _timeLength := 8, _lastLength := 6 }

/-- The generator `NewPushGenerator(nil, nil)` of `TestPushGenerator`, for a
clock that read 42 ns at construction and a fresh random source that draws 7
every time. -/
def sampleDefault : PushGenerator := NewPushGenerator none none 42 (fun _ _ => 7)

/-- One hour, the retention of the `rotate_hourly` test case, in nanoseconds. -/
def hourNanos : Int := 3600000000000

/-- The generator `NewPushGenerator(nil, &d)` for `d = time.Hour`. -/
def sampleHourly : PushGenerator := NewPushGenerator none (some hourNanos) 42 (fun _ _ => 7)

/-- A generator with the retention of one hour and the width 3 the constructor
computes for it, whose random source drew the digits 63, 63, 63, 63, 63, 0. -/
def sampleWrap : PushGenerator :=
  { seed := 0, stamp := 0, last := [63, 63, 63, 63, 63, 0], ret := some hourNanos,
    _timeLength := 3, _lastLength := 6 }

/-- A positive retention below one millisecond: 500 microseconds, in nanoseconds. -/
def halfMilliNanos : Int := 500000

/-- A retention of `2 ^ 29` ms = 536,870,912 ms (a little over six days), in
nanoseconds. -/
def binaryNanos : Int := 536870912000000

/-! ## Basic facts about the primitives -/

theorem getAt_natCast {α : Type} (xs : List α) (k : Nat) : getAt xs (k : Int) = xs[k]? := by
  simp [getAt]

theorem setAt_natCast {α : Type} (xs : List α) (k : Nat) (v : α) (h : k < xs.length) :
    setAt xs (k : Int) v = some (xs.set k v) := by
  simp [setAt, h]

theorem setAt_length {α : Type} {xs ys : List α} {i : Int} {v : α}
    (h : setAt xs i v = some ys) : ys.length = xs.length := by
  unfold setAt at h
  split at h
  · cases h; simp
  · cases h

theorem pushAt_natCast (k : Nat) (h : k < 64) : pushAt (k : Int) = some (pushChar k) := by
  have hl : pushChars.data.length = 64 := by decide
  simp only [pushAt, getAt_natCast, pushChar]
  rw [List.getD_eq_getElem?_getD, List.getElem?_eq_getElem (by omega)]
  rfl

theorem wrapInt_digit {v : Int} (h0 : 0 ≤ v) (h1 : v < 64) : wrapInt (v + 1) = v + 1 := by
  unfold wrapInt; omega

theorem tmod_natCast (m : Nat) : Int.tmod (m : Int) 64 = ((m % 64 : Nat) : Int) := rfl

theorem tdiv_natCast (m : Nat) : Int.tdiv (m : Int) 64 = ((m / 64 : Nat) : Int) := rfl

theorem drop_set_self {α : Type} : ∀ (xs : List α) (n : Nat) (v : α), n < xs.length →
    (xs.set n v).drop n = v :: xs.drop (n + 1)
  | [], _, _, h => by simp at h
  | _ :: _, 0, _, _ => by simp
  | _ :: xs, n + 1, v, h => by
    simp [drop_set_self xs n v (by simp at h; omega)]

theorem set_append_cons {α : Type} : ∀ (pre : List α) (x v : α) (suf : List α),
    (pre ++ x :: suf).set pre.length v = pre ++ v :: suf
  | [], _, _, _ => by simp
  | _ :: pre, x, v, suf => by simp [set_append_cons pre x v suf]

/-- The timestamp loop started at index `n - 1` overwrites the first `n` bytes by
the `n` low base-64 digits of `m`, most significant first. -/
theorem setTime_spec (n : Nat) : ∀ (m : Nat) (id : List Char), n ≤ id.length →
    setTime n ((n : Int) - 1) (m : Int) id
      = some ((beDigits n m).map pushChar ++ id.drop n) := by
  induction n with
  | zero => intro m id _; simp [setTime, beDigits]
  | succ n ih =>
    intro m id h
    have hm : m % 64 < 64 := Nat.mod_lt _ (by decide)
    have hi : ((n + 1 : Nat) : Int) - 1 = (n : Int) := by omega
    rw [hi]
    simp only [setTime, tmod_natCast, tdiv_natCast, pushAt_natCast _ hm, Option.bind_eq_bind,
      Option.some_bind, setAt_natCast id n _ (by omega : n < id.length)]
    rw [ih (m / 64) _ (by rw [List.length_set]; omega)]
    simp only [beDigits, List.map_append, List.map_cons, List.map_nil, List.append_assoc,
      List.singleton_append, Option.some.injEq, List.append_cancel_left_eq]
    exact drop_set_self id n _ (by omega)

theorem digit_tmod {d : Int} (h0 : 0 ≤ d) (h1 : d < 64) :
    pushAt (Int.tmod d 64) = some (pushChar d.toNat) := by
  obtain ⟨k, rfl⟩ := Int.eq_ofNat_of_zero_le h0
  have hk : k < 64 := by omega
  rw [tmod_natCast, Nat.mod_eq_of_lt hk, pushAt_natCast k hk]
  simp

/-- The entropy loop writes the digits still to do, in reverse order, into the
slots in front of the ones already written. -/
theorem setLast_spec (pre : List Char) : ∀ (todo done : List Int) (midR suf : List Char),
    midR.length = todo.length → suf.length = done.length → DigitsOk todo →
    setLast (done ++ todo) todo.length (done.length : Int) (pre ++ midR.reverse ++ suf)
      = some (pre ++ todo.reverse.map (fun d => pushChar d.toNat) ++ suf) := by
  intro todo
  induction todo with
  | nil =>
    intro done midR suf hm _ _
    have : midR = [] := List.length_eq_zero.mp hm
    simp [setLast, this]
  | cons d todo ih =>
    intro done midR suf hm hs hd
    obtain ⟨x, midR, rfl⟩ : ∃ x r, midR = x :: r := by
      cases midR with
      | nil => simp at hm
      | cons x r => exact ⟨x, r, rfl⟩
    have hdr : 0 ≤ d ∧ d < 64 := hd d (by simp)
    have hidx : (((pre ++ (x :: midR).reverse ++ suf).length : Int) - 1 - (done.length : Int))
        = (((pre ++ midR.reverse).length : Nat) : Int) := by
      simp only [List.length_append, List.length_reverse, List.length_cons, hs]
      push_cast; omega
    have hshape : pre ++ (x :: midR).reverse ++ suf = (pre ++ midR.reverse) ++ x :: suf := by
      simp
    simp only [setLast, List.length_cons, getAt_natCast, List.getElem?_append_right (le_refl _),
      Nat.sub_self, List.getElem?_cons_zero, Option.bind_eq_bind, Option.some_bind,
      digit_tmod hdr.1 hdr.2, hidx]
    rw [hshape, setAt_natCast _ _ _ (by simp), set_append_cons]
    have hcast : ((done.length : Int) + 1) = (((done ++ [d]).length : Nat) : Int) := by simp
    have hl : done ++ d :: todo = (done ++ [d]) ++ todo := by simp
    rw [hcast, hl]
    have := ih (done ++ [d]) midR (pushChar d.toNat :: suf) (by simpa using hm) (by simp [hs])
      (fun e he => hd e (by simp [he]))
    simp only [List.append_assoc] at this ⊢
    rw [Option.some_bind, this]
    simp

/-- The carry loop run on the digits from index `pre.length` on increments
them as a little-endian base-64 number. -/
theorem incLoop_spec : ∀ (todo pre : List Int), DigitsOk todo →
    incLoop todo.length (pre.length : Int) (pre ++ todo) = some (pre ++ incList todo) := by
  intro todo
  induction todo with
  | nil => intro pre _; simp [incLoop, incList]
  | cons d todo ih =>
    intro pre hd
    have hdr : 0 ≤ d ∧ d < 64 := hd d (by simp)
    simp only [incLoop, List.length_cons, getAt_natCast, List.getElem?_append_right (le_refl _),
      Nat.sub_self, List.getElem?_cons_zero, Option.bind_eq_bind, Option.some_bind,
      wrapInt_digit hdr.1 hdr.2, setAt_natCast _ _ _ (by simp : pre.length < (pre ++ d :: todo).length),
      set_append_cons, incList]
    split
    · rfl
    · rw [setAt_natCast _ _ _ (by simp), set_append_cons]
      have hcast : ((pre.length : Int) + 1) = (((pre ++ [0]).length : Nat) : Int) := by simp
      have hl : pre ++ (0 : Int) :: todo = (pre ++ [0]) ++ todo := by simp
      rw [hcast, hl, Option.some_bind, ih (pre ++ [0]) (fun e he => hd e (by simp [he]))]
      simp

theorem incList_length : ∀ (l : List Int), (incList l).length = l.length
  | [] => rfl
  | d :: ds => by
    unfold incList
    split
    · rfl
    · simp [incList_length ds]

theorem incList_digitsOk : ∀ (l : List Int), DigitsOk l → DigitsOk (incList l)
  | [], h => h
  | d :: ds, h => by
    have hd : 0 ≤ d ∧ d < 64 := h d (by simp)
    have ht : DigitsOk ds := fun e he => h e (by simp [he])
    unfold incList
    split
    · intro e he
      rcases List.mem_cons.mp he with rfl | he
      · omega
      · exact ht e he
    · intro e he
      rcases List.mem_cons.mp he with rfl | he
      · omega
      · exact incList_digitsOk ds ht e he

theorem nextLast_length (pg : PushGenerator) (now : Int) :
    (nextLast pg now).length = pg.last.length := by
  unfold nextLast; split
  · exact incList_length _
  · rfl

theorem nextLast_digitsOk (pg : PushGenerator) (now : Int) (h : DigitsOk pg.last) :
    DigitsOk (nextLast pg now) := by
  unfold nextLast; split
  · exact incList_digitsOk _ h
  · exact h

/-- What `Generate` returns on a well-formed state for a non-negative bucket. -/
theorem Generate_spec (pg : PushGenerator) (clock now : Int) (hw : WellFormed pg)
    (hb : bucket pg clock = some now) (h0 : 0 ≤ now) :
    Generate pg clock
      = some (idOf pg._timeLength.toNat now.toNat (nextLast pg now),
          { pg with stamp := now, last := nextLast pg now }) := by
  obtain ⟨seed, stamp, last, ret, tl, ll⟩ := pg
  obtain ⟨ht, hl, hlen, hd⟩ := hw
  simp only at ht hl hlen hd
  obtain ⟨T, rfl⟩ := Int.eq_ofNat_of_zero_le ht
  obtain ⟨m, rfl⟩ := Int.eq_ofNat_of_zero_le h0
  have hL : ((last.length : Nat) : Int) = ll := hlen
  subst hL
  have hinc : tieBreak ⟨seed, stamp, last, ret, T, last.length⟩ m
      = some (nextLast ⟨seed, stamp, last, ret, T, last.length⟩ m) := by
    unfold nextLast tieBreak
    split
    · simpa using incLoop_spec last [] hd
    · rfl
  have hnl := nextLast_length ⟨seed, stamp, last, ret, T, last.length⟩ m
  have hnd := nextLast_digitsOk ⟨seed, stamp, last, ret, T, last.length⟩ m hd
  simp only at hnl
  generalize nextLast ⟨seed, stamp, last, ret, T, last.length⟩ m = nl at hinc hnl hnd ⊢
  have hmk : makeBytes ((T : Int) + (last.length : Int))
      = some (List.replicate T zeroByte ++ (List.replicate last.length zeroByte).reverse ++ []) := by
    have : (T : Int) + (last.length : Int) = ((T + last.length : Nat) : Int) := by push_cast; rfl
    rw [this, makeBytes, if_pos (Int.ofNat_nonneg _), Int.toNat_ofNat, List.replicate_add,
      List.reverse_replicate, List.append_nil]
  have hsl := setLast_spec (List.replicate T zeroByte) nl []
      (List.replicate last.length zeroByte) [] (by simp [hnl]) rfl hnd
  simp only [List.nil_append, List.length_nil, Nat.cast_zero, hnl] at hsl
  have hst := setTime_spec (T + 1) m (List.replicate T zeroByte ++
      nl.reverse.map (fun d => pushChar d.toNat) ++ []) (by simp [hnl]; omega)
  have hT1 : (((T + 1 : Nat) : Int) - 1) = (T : Int) := by omega
  rw [hT1] at hst
  have hT2 : ((T : Int) + 1).toNat = T + 1 := by omega
  have hdrop : List.drop (T + 1) (List.replicate T zeroByte ++
      nl.reverse.map (fun d => pushChar d.toNat) ++ [])
      = (nl.reverse.drop 1).map (fun d => pushChar d.toNat) := by
    simp [List.drop_append_eq_append_drop, List.drop_replicate, List.map_drop]
  rw [hdrop] at hst
  unfold Generate
  rw [hmk, hb]
  simp only [Option.bind_eq_bind, Option.some_bind]
  rw [hinc]
  simp only [Option.some_bind, Int.toNat_ofNat]
  rw [hsl]
  simp only [Option.some_bind]
  rw [hT2, hst]
  rfl

/-! ## The state part of a call, without assumptions on the state -/

theorem makeBytes_length {n : Int} {id : List Char} (h : makeBytes n = some id) :
    (id.length : Int) = n := by
  unfold makeBytes at h
  split at h
  · cases h
    rw [List.length_replicate, Int.toNat_of_nonneg (by assumption)]
  · cases h

theorem setLast_length (last : List Int) : ∀ (n : Nat) (i : Int) (id out : List Char),
    setLast last n i id = some out → out.length = id.length := by
  intro n
  induction n with
  | zero => intro i id out h; simp only [setLast, Option.some.injEq] at h; rw [← h]
  | succ n ih =>
    intro i id out h
    simp only [setLast, Option.bind_eq_bind, Option.bind_eq_some] at h
    obtain ⟨d, _, c, _, id1, h1, h2⟩ := h
    rw [ih _ _ _ h2, setAt_length h1]

theorem setTime_length : ∀ (n : Nat) (i now : Int) (id out : List Char),
    setTime n i now id = some out → out.length = id.length := by
  intro n
  induction n with
  | zero => intro i now id out h; simp only [setTime, Option.some.injEq] at h; rw [← h]
  | succ n ih =>
    intro i now id out h
    simp only [setTime, Option.bind_eq_bind, Option.bind_eq_some] at h
    obtain ⟨c, _, id1, h1, h2⟩ := h
    rw [ih _ _ _ _ h2, setAt_length h1]

/-- Whenever `Generate` returns, the new state is the old one with the bucket
stored and the entropy vector replaced by the tie-break result, and the ID has
the length of the allocated buffer. -/
theorem Generate_state {pg pg' : PushGenerator} {clock : Int} {id : List Char}
    (h : Generate pg clock = some (id, pg')) :
    ∃ now last, bucket pg clock = some now ∧ tieBreak pg now = some last ∧
      pg' = { pg with stamp := now, last := last } ∧
      (id.length : Int) = pg._timeLength + pg._lastLength := by
  simp only [Generate, Option.bind_eq_bind, Option.bind_eq_some, Option.some.injEq,
    Prod.mk.injEq] at h
  obtain ⟨id0, h0, now, hb, last, ht, id1, h1, id2, h2, hid, hpg⟩ := h
  refine ⟨now, last, hb, ht, hpg.symm, ?_⟩
  rw [← hid, setTime_length _ _ _ _ _ h2, setLast_length _ _ _ _ _ h1, makeBytes_length h0]

/-- On a well-formed state the tie-break step never panics. -/
theorem tieBreak_spec (pg : PushGenerator) (now : Int) (hw : WellFormed pg) :
    tieBreak pg now = some (nextLast pg now) := by
  have hl : pg._lastLength.toNat = pg.last.length := by
    have := hw.last_len; omega
  unfold tieBreak nextLast
  split
  · rw [hl]; simpa using incLoop_spec pg.last [] hw.digits
  · rfl

theorem bucket_nonneg {pg : PushGenerator} {clock now : Int} (hc : 0 ≤ clock)
    (hb : bucket pg clock = some now) : 0 ≤ now := by
  unfold bucket at hb
  split at hb
  · cases hb; exact hc
  · split at hb
    · cases hb
    · cases hb; exact Int.tmod_nonneg _ hc

theorem bucket_isSome (pg : PushGenerator) (clock : Int)
    (hr : ∀ d, pg.ret = some d → Milliseconds d ≠ 0) : ∃ now, bucket pg clock = some now := by
  unfold bucket
  split
  · exact ⟨_, rfl⟩
  · rename_i d hd
    rw [if_neg (hr d hd)]
    exact ⟨_, rfl⟩

/-! ## The alphabet -/

theorem pushChars_length : pushChars.data.length = 64 := by decide

theorem pushChars_sorted : List.Sorted (· < ·) pushChars.data := by decide

theorem pushChar_eq_get (d : Nat) (h : d < pushChars.data.length) :
    pushChar d = pushChars.data.get ⟨d, h⟩ := by
  simp [pushChar, List.getD_eq_getElem?_getD, List.getElem?_eq_getElem h]

theorem pushChar_mem {d : Nat} (h : d < 64) : pushChar d ∈ pushChars.data := by
  rw [pushChar_eq_get d (by rw [pushChars_length]; exact h)]
  exact List.get_mem _ _ _

theorem pushChar_lt {a b : Nat} (hab : a < b) (hb : b < 64) : pushChar a < pushChar b := by
  rw [pushChar_eq_get a (by rw [pushChars_length]; omega),
    pushChar_eq_get b (by rw [pushChars_length]; omega)]
  exact List.pairwise_iff_get.mp pushChars_sorted _ _ hab

theorem beDigits_length : ∀ (k n : Nat), (beDigits k n).length = k
  | 0, _ => rfl
  | k + 1, n => by simp [beDigits, beDigits_length k]

theorem beDigits_lt : ∀ (k n : Nat), ∀ d ∈ beDigits k n, d < 64
  | 0, _ => by simp [beDigits]
  | k + 1, n => by
    intro d hd
    simp only [beDigits, List.mem_append, List.mem_singleton] at hd
    rcases hd with hd | rfl
    · exact beDigits_lt k _ d hd
    · exact Nat.mod_lt _ (by decide)

/-- Every byte of the string `idOf` is an alphabet character. -/
theorem idOf_mem (tl now : Nat) (last : List Int) (hd : DigitsOk last) :
    ∀ c ∈ idOf tl now last, c ∈ pushChars.data := by
  intro c hc
  simp only [idOf, List.mem_append, List.mem_map] at hc
  rcases hc with ⟨d, hd1, rfl⟩ | ⟨d, hd1, rfl⟩
  · exact pushChar_mem (beDigits_lt _ _ d hd1)
  · have hm : d ∈ last := List.mem_reverse.mp (List.mem_of_mem_drop hd1)
    have := hd d hm
    exact pushChar_mem (by omega)

/-! ## Lexicographic order -/

theorem lex_append_of_length_eq {α : Type} {r : α → α → Prop} :
    ∀ {a b : List α} (x y : List α), List.Lex r a b → a.length = b.length →
      List.Lex r (a ++ x) (b ++ y)
  | _, _, _, _, List.Lex.nil, h => by simp at h
  | _, _, x, y, List.Lex.cons h, hl =>
    List.Lex.cons (lex_append_of_length_eq x y h (by simpa using hl))
  | _, _, _, _, List.Lex.rel h, _ => List.Lex.rel h

theorem lex_map_pushChar : ∀ {a b : List Nat}, List.Lex (· < ·) a b →
    (∀ d ∈ b, d < 64) → List.Lex (· < ·) (a.map pushChar) (b.map pushChar)
  | _, _, List.Lex.nil, _ => List.Lex.nil
  | _, _, List.Lex.cons h, hb =>
    List.Lex.cons (lex_map_pushChar h (fun d hd => hb d (List.mem_cons_of_mem _ hd)))
  | _, _, List.Lex.rel h, hb => List.Lex.rel (pushChar_lt h (hb _ (List.mem_cons_self _ _)))

/-- Base-64 digit strings of equal width are ordered like the numbers they
encode. -/
theorem beDigits_lex : ∀ (k a b : Nat), a < b → b < 64 ^ k →
    List.Lex (· < ·) (beDigits k a) (beDigits k b)
  | 0, a, b, hab, hb => by simp at hb; omega
  | k + 1, a, b, hab, hb => by
    simp only [beDigits]
    rcases Nat.lt_or_ge (a / 64) (b / 64) with h | h
    · have hb1 : b / 64 < 64 ^ k := by
        rw [Nat.div_lt_iff_lt_mul (by decide)]; rw [pow_succ] at hb; exact hb
      exact lex_append_of_length_eq _ _ (beDigits_lex k _ _ h hb1)
        (by rw [beDigits_length, beDigits_length])
    · have he : a / 64 = b / 64 := by omega
      rw [he]
      exact List.Lex.append_left _ (List.Lex.rel (by omega)) _

/-! ## The entropy vector as a number -/

theorem leVal_bounds : ∀ (l : List Int), DigitsOk l → 0 ≤ leVal l ∧ leVal l < 64 ^ l.length
  | [], _ => by simp [leVal]
  | d :: ds, h => by
    have hd : 0 ≤ d ∧ d < 64 := h d (by simp)
    have ih := leVal_bounds ds (fun e he => h e (by simp [he]))
    simp only [leVal, List.length_cons, pow_succ]
    constructor <;> omega

theorem leVal_incList : ∀ (l : List Int), DigitsOk l →
    leVal (incList l) = (leVal l + 1) % 64 ^ l.length
  | [], _ => by simp [leVal, incList]
  | d :: ds, h => by
    have hd : 0 ≤ d ∧ d < 64 := h d (by simp)
    have ht : DigitsOk ds := fun e he => h e (by simp [he])
    have hb := leVal_bounds ds ht
    have ih := leVal_incList ds ht
    unfold incList
    split
    · simp only [leVal, List.length_cons, pow_succ]
      rw [Int.emod_eq_of_lt (by omega) (by omega)]
      omega
    · have h63 : d = 63 := by omega
      subst h63
      simp only [leVal, List.length_cons, ih]
      have : (63 + 64 * leVal ds + 1 : Int) = 64 * (leVal ds + 1) := by ring
      rw [this, pow_succ, mul_comm ((64 : Int) ^ ds.length) 64,
        Int.mul_emod_mul_of_pos _ _ (by decide : (0 : Int) < 64)]
      ring

theorem incList_all63 : ∀ (l : List Int), (∀ d ∈ l, d = 63) → ∀ d ∈ incList l, d = 0
  | [], _ => by simp [incList]
  | d :: ds, h => by
    have hd : d = 63 := h d (by simp)
    subst hd
    have ih := incList_all63 ds (fun e he => h e (by simp [he]))
    intro e he
    simp only [incList] at he
    rw [if_neg (by decide)] at he
    rcases List.mem_cons.mp he with rfl | he
    · rfl
    · exact ih e he

/-- The state `Generate` leaves behind on a well-formed state is well-formed. -/
theorem WellFormed_next {pg : PushGenerator} (hw : WellFormed pg) (now : Int) :
    WellFormed { pg with stamp := now, last := nextLast pg now } where
  time_nonneg := hw.time_nonneg
  last_pos := hw.last_pos
  last_len := by
    show ((nextLast pg now).length : Int) = pg._lastLength
    rw [nextLast_length]; exact hw.last_len
  digits := nextLast_digitsOk pg now hw.digits

/-- On a well-formed state `Generate` returns for every non-negative clock
reading, provided a configured retention is not shorter than a millisecond. -/
theorem Generate_total (pg : PushGenerator) (clock : Int) (hw : WellFormed pg)
    (hc : 0 ≤ clock) (hr : ∀ d, pg.ret = some d → Milliseconds d ≠ 0) :
    ∃ id pg', Generate pg clock = some (id, pg') := by
  obtain ⟨now, hb⟩ := bucket_isSome pg clock hr
  exact ⟨_, _, Generate_spec pg clock now hw hb (bucket_nonneg hc hb)⟩

/-! ## Runs of calls in one bucket -/

theorem ofVal_length : ∀ (n v : Nat), (ofVal n v).length = n
  | 0, _ => rfl
  | n + 1, v => by simp [ofVal, ofVal_length n]

theorem ofVal_digitsOk : ∀ (n v : Nat), DigitsOk (ofVal n v)
  | 0, _ => by simp [ofVal, DigitsOk]
  | n + 1, v => by
    intro d hd
    simp only [ofVal, List.mem_cons] at hd
    rcases hd with rfl | hd
    · omega
    · exact ofVal_digitsOk n _ d hd

/-- Incrementing the digit vector of `v` gives the digit vector of `v + 1`. -/
theorem incList_ofVal : ∀ (n v : Nat), incList (ofVal n v) = ofVal n (v + 1)
  | 0, _ => rfl
  | n + 1, v => by
    simp only [ofVal, incList]
    split
    · have h1 : (v + 1) % 64 = v % 64 + 1 := by omega
      have h2 : (v + 1) / 64 = v / 64 := by omega
      rw [h1, h2]; push_cast; rfl
    · have h1 : (v + 1) % 64 = 0 := by omega
      have h2 : (v + 1) / 64 = v / 64 + 1 := by omega
      rw [h1, h2, incList_ofVal n]; rfl

theorem ofVal_succ_snoc : ∀ (n v : Nat),
    ofVal (n + 1) v = ofVal n v ++ [((v / 64 ^ n % 64 : Nat) : Int)]
  | 0, v => by simp [ofVal]
  | n + 1, v => by
    have ih := ofVal_succ_snoc n (v / 64)
    have hp : v / 64 / 64 ^ n = v / 64 ^ (n + 1) := by
      rw [Nat.div_div_eq_div_mul, pow_succ, mul_comm]
    rw [hp] at ih
    rw [ofVal, ih]
    rfl

theorem ofVal_add_pow : ∀ (n v : Nat), ofVal n (v + 64 ^ n) = ofVal n v
  | 0, _ => rfl
  | n + 1, v => by
    have h1 : (v + 64 ^ (n + 1)) % 64 = v % 64 := by
      rw [pow_succ]; omega
    have h2 : (v + 64 ^ (n + 1)) / 64 = v / 64 + 64 ^ n := by
      rw [pow_succ]; omega
    simp only [ofVal, h1, h2, ofVal_add_pow n]

/-- The most significant entropy digit does not reach the ID: adding
`64 ^ n` to the value of an `n + 1`-digit vector leaves `idOf` unchanged. -/
theorem idOf_ofVal_add_pow (tl now n v : Nat) :
    idOf tl now (ofVal (n + 1) (v + 64 ^ n)) = idOf tl now (ofVal (n + 1) v) := by
  simp only [idOf, ofVal_succ_snoc, List.reverse_append, List.reverse_singleton,
    List.singleton_append, List.drop_succ_cons, List.drop_zero, ofVal_add_pow]

/-- The IDs of `n` successive calls at one clock reading `t`, made on a
generator without retention whose stored bucket is `t` and whose entropy vector
has the value `v`. -/
theorem generateAll_same_bucket (t : Int) (h0 : 0 ≤ t) : ∀ (n v : Nat) (pg : PushGenerator),
    WellFormed pg → pg.ret = none → pg.stamp = t → pg.last = ofVal pg.last.length v →
    generateAll pg (List.replicate n t)
      = some ((List.range n).map
            (fun k => idOf pg._timeLength.toNat t.toNat (ofVal pg.last.length (v + k + 1))),
          { pg with last := ofVal pg.last.length (v + n) }) := by
  intro n
  induction n with
  | zero =>
    intro v pg _ _ _ hl
    simp only [List.replicate, generateAll, List.range_zero, List.map_nil, Nat.add_zero,
      Option.some.injEq, Prod.mk.injEq, true_and]
    rw [← hl]
  | succ n ih =>
    intro v pg hw hr hs hl
    have hb : bucket pg t = some t := by simp [bucket, hr]
    have hnl : nextLast pg t = ofVal pg.last.length (v + 1) := by
      unfold nextLast
      rw [if_pos hs, hl, incList_ofVal, ofVal_length]
    have hg := Generate_spec pg t t hw hb h0
    rw [hnl] at hg
    have hw1 := WellFormed_next hw t
    rw [hnl] at hw1
    have ih1 := ih (v + 1) { pg with stamp := t, last := ofVal pg.last.length (v + 1) } hw1 hr rfl
      (by simp only [ofVal_length])
    simp only [ofVal_length] at ih1
    simp only [List.replicate, generateAll, hg, ih1, Option.bind_eq_bind, Option.some_bind,
      List.range_succ_eq_map, List.map_cons, List.map_map, Option.some.injEq, Prod.mk.injEq,
      List.cons.injEq]
    refine ⟨⟨trivial, ?_⟩, ?_⟩
    · apply List.map_congr_left
      intro k _
      simp only [Function.comp, Nat.succ_eq_add_one]
      rw [show v + 1 + k + 1 = v + (k + 1) + 1 by omega]
    · rw [show v + 1 + n = v + (n + 1) by omega, ← hs]

theorem map_range_not_nodup {α : Type} (f : Nat → α) (n i j : Nat) (hij : i < j) (hj : j < n)
    (h : f i = f j) : ¬ ((List.range n).map f).Nodup := by
  intro hnd
  have := List.nodup_iff_getElem?_ne_getElem?.mp hnd i j hij (by simpa using hj)
  rw [List.getElem?_map, List.getElem?_map, List.getElem?_range (by omega),
    List.getElem?_range hj] at this
  exact this (by simp [h])

/-! ## Claims -/

/-- Claim C1 (same-bucket monotonicity) fails on the code.  A default-width
generator holding the digits 63, 63, 63, 63, 63, 0 is called twice at one clock
reading: the entropy vector before the second call is not all 63s, the carry
reaches the most significant digit, whose slot the timestamp loop overwrites,
and the second ID is smaller than the first. -/
theorem c1_same_bucket_order_broken :
    DigitsOk sampleCarry.last ∧
    Generate sampleCarry sampleClock
      = some ("--OAqkdF-zzzzz".data, { sampleCarry with stamp := sampleClock }) ∧
    ¬ (∀ d ∈ ({ sampleCarry with stamp := sampleClock } : PushGenerator).last, d = 63) ∧
    Generate { sampleCarry with stamp := sampleClock } sampleClock
      = some ("--OAqkdF------".data,
          { sampleCarry with stamp := sampleClock, last := [0, 0, 0, 0, 0, 1] }) ∧
    List.Lex (· < ·) "--OAqkdF------".data "--OAqkdF-zzzzz".data ∧
    ¬ List.Lex (· < ·) "--OAqkdF-zzzzz".data "--OAqkdF------".data := by
  refine ⟨?_, ?_, ?_, ?_, ?_, ?_⟩
  · unfold DigitsOk; decide
  · decide
  · decide
  · decide
  · decide
  · decide

theorem sampleCarry_wellFormed : WellFormed sampleCarry where
  time_nonneg := by decide
  last_pos := by decide
  last_len := by decide
  digits := by unfold DigitsOk; decide

/-- Claim C2 (cross-bucket monotonicity).  A generator without retention, with
timestamp width `tw` and entropy digits in `[0, 64)`, is called at the clock
readings `t1 < t2` with `0 ≤ t1` and `t2 < 64 ^ tw`: both calls return, and the
second ID is strictly greater than the first in lexicographic byte order,
whatever the entropy vector is. -/
theorem c2_cross_bucket_monotone (pg : PushGenerator) (t1 t2 : Int) (hw : WellFormed pg)
    (hr : pg.ret = none) (h0 : 0 ≤ t1) (h12 : t1 < t2)
    (h2 : t2 < 64 ^ pg._timeLength.toNat) :
    ∃ id1 pg1 id2 pg2, Generate pg t1 = some (id1, pg1) ∧ Generate pg1 t2 = some (id2, pg2) ∧
      List.Lex (· < ·) id1 id2 := by
  have hb1 : bucket pg t1 = some t1 := by simp [bucket, hr]
  have hw1 := WellFormed_next hw t1
  have hb2 : bucket { pg with stamp := t1, last := nextLast pg t1 } t2 = some t2 := by
    simp [bucket, hr]
  refine ⟨_, _, _, _, Generate_spec pg t1 t1 hw hb1 h0,
    Generate_spec _ t2 t2 hw1 hb2 (by omega), ?_⟩
  obtain ⟨a, rfl⟩ := Int.eq_ofNat_of_zero_le h0
  obtain ⟨b, rfl⟩ := Int.eq_ofNat_of_zero_le (by omega : 0 ≤ t2)
  have hab : a < b := by exact_mod_cast h12
  have hb : b < 64 ^ (pg._timeLength.toNat + 1) := by
    have h : b < 64 ^ pg._timeLength.toNat := by exact_mod_cast h2
    rw [pow_succ]; omega
  simp only [idOf, Int.toNat_ofNat]
  exact lex_append_of_length_eq _ _
    (lex_map_pushChar (beDigits_lex _ a b hab hb) (beDigits_lt _ _))
    (by simp [beDigits_length])

/-- Witness of `c2_cross_bucket_monotone`: the sample generator called at two
successive milliseconds. -/
theorem c2_cross_bucket_monotone_witness :
    ∃ id1 pg1 id2 pg2, Generate sampleCarry sampleClock = some (id1, pg1) ∧
      Generate pg1 (sampleClock + 1) = some (id2, pg2) ∧ List.Lex (· < ·) id1 id2 :=
  c2_cross_bucket_monotone sampleCarry sampleClock (sampleClock + 1) sampleCarry_wellFormed rfl
    (by decide) (by decide) (by decide)

/-- Claim C4 (length invariant).  Whatever the configuration and the clock
reading, an ID returned by `Generate` has length exactly
`_timeLength + _lastLength`, and on a well-formed state with a non-negative
clock reading (and no retention below one millisecond) the call does return
one.  For a generator built by `NewPushGenerator` without a retention duration
the widths are 8 and 6 and the length is 14. -/
theorem c4_length_invariant (pg : PushGenerator) (clock : Int) :
    (∀ id pg', Generate pg clock = some (id, pg') →
      (id.length : Int) = pg._timeLength + pg._lastLength) ∧
    (WellFormed pg → 0 ≤ clock → (∀ d, pg.ret = some d → Milliseconds d ≠ 0) →
      ∃ id pg', Generate pg clock = some (id, pg') ∧
        (id.length : Int) = pg._timeLength + pg._lastLength) ∧
    (∀ (r : Option (Nat → Int)) (nowNano : Int) (newRand : Int → Nat → Int),
      pg = NewPushGenerator r none nowNano newRand →
        pg._timeLength = 8 ∧ pg._lastLength = 6 ∧
        ∀ id pg', Generate pg clock = some (id, pg') → id.length = 14) := by
  have hA : ∀ id pg', Generate pg clock = some (id, pg') →
      (id.length : Int) = pg._timeLength + pg._lastLength := by
    intro id pg' h
    obtain ⟨_, _, _, _, _, hlen⟩ := Generate_state h
    exact hlen
  refine ⟨hA, ?_, ?_⟩
  · intro hw hc hr
    obtain ⟨id, pg', h⟩ := Generate_total pg clock hw hc hr
    exact ⟨id, pg', h, hA id pg' h⟩
  · intro r nowNano newRand hpg
    have h8 : pg._timeLength = 8 := by rw [hpg]; rfl
    have h6 : pg._lastLength = 6 := by rw [hpg]; rfl
    refine ⟨h8, h6, ?_⟩
    intro id pg' h
    have hlen := hA id pg' h
    rw [h8, h6] at hlen
    omega

/-- Witness of `c4_length_invariant`: a generator built without retention from a
random source that always draws 7, called at the sample clock reading, returns
the 14 characters `--OAqkdF-66666`. -/
theorem c4_length_invariant_witness :
    Generate (NewPushGenerator (some (fun _ => 7)) none 0 (fun _ _ => 0)) sampleClock
      = some ("--OAqkdF-66666".data,
          { NewPushGenerator (some (fun _ => 7)) none 0 (fun _ _ => 0) with
            stamp := sampleClock }) ∧
    ("--OAqkdF-66666".data).length = 14 ∧
    ∃ id pg', Generate (NewPushGenerator (some (fun _ => 7)) none 0 (fun _ _ => 0)) sampleClock
        = some (id, pg') ∧
      (id.length : Int) = 8 + 6 :=
  ⟨by decide,
    ((c4_length_invariant (NewPushGenerator (some (fun _ => 7)) none 0 (fun _ _ => 0))
        sampleClock).2.2 (some (fun _ => 7)) 0 (fun _ _ => 0) rfl).2.2 "--OAqkdF-66666".data
      { NewPushGenerator (some (fun _ => 7)) none 0 (fun _ _ => 0) with stamp := sampleClock }
      (by decide),
    (c4_length_invariant (NewPushGenerator (some (fun _ => 7)) none 0 (fun _ _ => 0))
        sampleClock).2.1 ⟨by decide, by decide, by decide, by unfold DigitsOk; decide⟩
      (by decide) (fun d hd => by cases hd)⟩

/-- Claim C5 (alphabet containment).  For a state whose entropy digits lie in
`[0, 64)` and a non-negative clock reading, an ID returned by `Generate` has
`_timeLength + _lastLength` bytes and each of them is one of the 64 characters
of `pushChars`; and the call does return unless a configured retention is
shorter than a millisecond. -/
theorem c5_alphabet_containment (pg : PushGenerator) (clock : Int) (hw : WellFormed pg)
    (hc : 0 ≤ clock) :
    (∀ id pg', Generate pg clock = some (id, pg') →
      (id.length : Int) = pg._timeLength + pg._lastLength ∧ ∀ c ∈ id, c ∈ pushChars.data) ∧
    ((∀ d, pg.ret = some d → Milliseconds d ≠ 0) →
      ∃ id pg', Generate pg clock = some (id, pg')) := by
  refine ⟨?_, Generate_total pg clock hw hc⟩
  intro id pg' h
  obtain ⟨now, last, hb, _, _, hlen⟩ := Generate_state h
  refine ⟨hlen, ?_⟩
  rw [Generate_spec pg clock now hw hb (bucket_nonneg hc hb)] at h
  simp only [Option.some.injEq, Prod.mk.injEq] at h
  rw [← h.1]
  exact idOf_mem _ _ _ (nextLast_digitsOk pg now hw.digits)

/-- Witness of `c5_alphabet_containment`: the sample generator at the sample
clock reading. -/
theorem c5_alphabet_containment_witness :
    WellFormed sampleCarry ∧ 0 ≤ sampleClock ∧
    (∃ id pg', Generate sampleCarry sampleClock = some (id, pg')) ∧
    ∀ c ∈ "--OAqkdF-zzzzz".data, c ∈ pushChars.data :=
  ⟨sampleCarry_wellFormed, by decide,
    (c5_alphabet_containment sampleCarry sampleClock sampleCarry_wellFormed (by decide)).2
      (fun d hd => by cases hd),
    ((c5_alphabet_containment sampleCarry sampleClock sampleCarry_wellFormed (by decide)).1
      "--OAqkdF-zzzzz".data { sampleCarry with stamp := sampleClock } (by decide)).2⟩

/-- Claim C6 (tie-break increment).  For a state with entropy digits in
`[0, 64)` and a call whose bucket equals the stored one, the entropy vector
after the call has the same number of digits, all in `[0, 64)`, and its
little-endian base-64 value is the old value plus one modulo `64 ^ width`
(`64 ^ 6` for the six digits every constructed generator has); in particular the
all-63 vector becomes the all-0 vector.  The call returns when the clock reading
is non-negative. -/
theorem c6_tie_break_increment (pg : PushGenerator) (clock : Int) (hw : WellFormed pg)
    (hb : bucket pg clock = some pg.stamp) :
    (0 ≤ clock → ∃ id pg', Generate pg clock = some (id, pg')) ∧
    ∀ id pg', Generate pg clock = some (id, pg') →
      pg'.last.length = pg.last.length ∧ DigitsOk pg'.last ∧
      leVal pg'.last = (leVal pg.last + 1) % 64 ^ pg.last.length ∧
      (pg._lastLength = 6 → leVal pg'.last = (leVal pg.last + 1) % 64 ^ 6) ∧
      ((∀ d ∈ pg.last, d = 63) → ∀ d ∈ pg'.last, d = 0) := by
  constructor
  · intro hc
    exact ⟨_, _, Generate_spec pg clock pg.stamp hw hb (bucket_nonneg hc hb)⟩
  · intro id pg' h
    obtain ⟨now, last, hb', ht, hpg, _⟩ := Generate_state h
    rw [hb] at hb'
    cases hb'
    rw [tieBreak_spec pg pg.stamp hw] at ht
    cases ht
    have hl : (({ pg with stamp := pg.stamp, last := nextLast pg pg.stamp } : PushGenerator).last)
        = incList pg.last := by simp [nextLast]
    rw [hpg, hl]
    refine ⟨incList_length _, incList_digitsOk _ hw.digits, leVal_incList _ hw.digits, ?_,
      incList_all63 _⟩
    intro h6
    have hlen : pg.last.length = 6 := by have := hw.last_len; omega
    rw [leVal_incList _ hw.digits, hlen]

/-- Witness of `c6_tie_break_increment`: the sample generator, its stored bucket
being the sample clock reading, called at that reading. -/
theorem c6_tie_break_increment_witness :
    WellFormed { sampleCarry with stamp := sampleClock } ∧
    bucket { sampleCarry with stamp := sampleClock } sampleClock = some sampleClock ∧
    leVal [0, 0, 0, 0, 0, 1] = (leVal [63, 63, 63, 63, 63, 0] + 1) % 64 ^ 6 :=
  ⟨⟨by decide, by decide, by decide, by unfold DigitsOk; decide⟩, by decide,
    ((c6_tie_break_increment { sampleCarry with stamp := sampleClock } sampleClock
        ⟨by decide, by decide, by decide, by unfold DigitsOk; decide⟩ (by decide)).2
      "--OAqkdF------".data
      { sampleCarry with stamp := sampleClock, last := [0, 0, 0, 0, 0, 1] } (by decide)).2.2.2.1
      (by decide)⟩

/-- Claim C7 (a new bucket leaves the entropy alone).  For every generator
state and every call of `Generate` whose bucket differs from the stored one, the
entropy vector after the call equals the one before it and the stored bucket
after the call is the bucket of the call; no other field changes. -/
theorem c7_new_bucket_keeps_entropy (pg pg' : PushGenerator) (clock now : Int)
    (id : List Char) (hb : bucket pg clock = some now) (hne : now ≠ pg.stamp)
    (h : Generate pg clock = some (id, pg')) :
    pg'.last = pg.last ∧ pg'.stamp = now ∧ pg' = { pg with stamp := now } := by
  obtain ⟨now', last, hb', ht, hpg, _⟩ := Generate_state h
  rw [hb] at hb'
  cases hb'
  have hl : last = pg.last := by
    unfold tieBreak at ht
    rw [if_neg (fun e => hne e.symm)] at ht
    cases ht
    rfl
  subst hl
  subst hpg
  exact ⟨rfl, rfl, rfl⟩

/-- Witness of `c7_new_bucket_keeps_entropy`: the sample generator, whose stored
bucket is 0, called at the sample clock reading. -/
theorem c7_new_bucket_keeps_entropy_witness :
    bucket sampleCarry sampleClock = some sampleClock ∧ sampleClock ≠ sampleCarry.stamp ∧
    Generate sampleCarry sampleClock
      = some ("--OAqkdF-zzzzz".data, { sampleCarry with stamp := sampleClock }) ∧
    ({ sampleCarry with stamp := sampleClock } : PushGenerator).last = sampleCarry.last ∧
    ({ sampleCarry with stamp := sampleClock } : PushGenerator).stamp = sampleClock :=
  ⟨by decide, by decide, by decide,
    (c7_new_bucket_keeps_entropy sampleCarry { sampleCarry with stamp := sampleClock }
      sampleClock sampleClock "--OAqkdF-zzzzz".data (by decide) (by decide) (by decide)).1,
    (c7_new_bucket_keeps_entropy sampleCarry { sampleCarry with stamp := sampleClock }
      sampleClock sampleClock "--OAqkdF-zzzzz".data (by decide) (by decide) (by decide)).2.1⟩

/-- Claim C8 (entropy segment) fails on the code.  The sample generator is
called one millisecond after the sample clock reading.  The entropy vector after
the call has the most significant digit 0, so the first of the six trailing
characters should be `pushChars[0]`, the character `-`; the ID has
`pushChars[now % 64] = pushChars[1]` there, the character `0`, written by the
timestamp loop. -/
theorem c8_entropy_segment_broken :
    Generate sampleCarry (sampleClock + 1)
      = some ("--OAqkdF0zzzzz".data, { sampleCarry with stamp := sampleClock + 1 }) ∧
    getAt "--OAqkdF0zzzzz".data (sampleCarry._timeLength + sampleCarry._lastLength - 6)
      = some '0' ∧
    (getAt ({ sampleCarry with stamp := sampleClock + 1 } : PushGenerator).last 5).bind pushAt
      = some '-' ∧
    pushAt (Int.tmod (sampleClock + 1) 64) = some '0' := by
  refine ⟨?_, ?_, ?_, ?_⟩ <;> decide

/-- Claim C9 (timestamp segment) fails on the code.  For the default width 8
and the bucket 5 the claim puts `pushChars[(5 / 64 ^ (8 - 1 - 7)) % 64]`, the
character `4`, at index 7; the code puts the digit of weight `64 ^ 1` there,
the character `-`, and the character `4` at index 8. -/
theorem c9_timestamp_segment_broken :
    Generate sampleCarry 5 = some ("--------4zzzzz".data, { sampleCarry with stamp := 5 }) ∧
    (5 : Int) < 64 ^ sampleCarry._timeLength.toNat ∧
    pushAt ((5 / 64 ^ (8 - 1 - 7)) % 64) = some '4' ∧
    getAt "--------4zzzzz".data 7 = some '-' ∧
    getAt "--------4zzzzz".data 8 = some '4' := by
  refine ⟨?_, ?_, ?_, ?_, ?_⟩ <;> decide

/-- Claim C3 (uniqueness within a bucket) fails on the code.  A default-width
generator with entropy digits in `[0, 64)` is called `64 ^ 5 + 1` times, which is
at most `64 ^ 6`, at one clock reading: the first and the last ID of the run
are equal, since the only digit in which the two entropy vectors differ is the
most significant one, whose slot the timestamp loop overwrites. -/
theorem c3_same_bucket_duplicate :
    DigitsOk sampleZero.last ∧ 64 ^ 5 + 1 ≤ 64 ^ 6 ∧
    ∃ ids pg', generateAll sampleZero (List.replicate (64 ^ 5 + 1) sampleClock) = some (ids, pg') ∧
      ids.length = 64 ^ 5 + 1 ∧
      ids[0]? = some "--OAqkdF-----0".data ∧ ids[64 ^ 5]? = some "--OAqkdF-----0".data ∧
      ¬ ids.Nodup := by
  have hw : WellFormed sampleZero :=
    ⟨by decide, by decide, by decide, by unfold DigitsOk; decide⟩
  have hrun := generateAll_same_bucket sampleClock (by decide) (64 ^ 5 + 1) 0 sampleZero hw rfl rfl
    (by decide)
  have hlt : 64 ^ 5 < 64 ^ 5 + 1 := Nat.lt_succ_self _
  have hpos : 0 < 64 ^ 5 + 1 := Nat.succ_pos _
  have e0 : idOf sampleZero._timeLength.toNat sampleClock.toNat
      (ofVal sampleZero.last.length (0 + 0 + 1)) = "--OAqkdF-----0".data := by decide
  have e1 : idOf sampleZero._timeLength.toNat sampleClock.toNat
      (ofVal sampleZero.last.length (0 + 64 ^ 5 + 1)) = "--OAqkdF-----0".data := by decide
  refine ⟨by unfold DigitsOk; decide, by decide, _, _, hrun, ?_, ?_, ?_, ?_⟩
  · rw [List.length_map, List.length_range]
  · rw [List.getElem?_map, List.getElem?_range hpos, Option.map_some', e0]
  · rw [List.getElem?_map, List.getElem?_range hlt, Option.map_some', e1]
  · exact map_range_not_nodup _ _ 0 (64 ^ 5) (by decide) hlt (e0.trans e1.symm)

/-! ## Floating point: the error of one operation -/

theorem bitLen_spec : ∀ (fuel n : Nat), n ≤ fuel →
    (n = 0 → bitLen fuel n = 0) ∧ (n ≠ 0 → 2 ^ (bitLen fuel n - 1) ≤ n ∧ n < 2 ^ bitLen fuel n)
  | 0, n, h => by
    have : n = 0 := by omega
    subst this
    simp [bitLen]
  | fuel + 1, n, h => by
    by_cases hn : n = 0
    · subst hn; simp [bitLen]
    · have ih := bitLen_spec fuel (n / 2) (by omega)
      refine ⟨fun h0 => absurd h0 hn, fun _ => ?_⟩
      simp only [bitLen, if_neg hn, Nat.add_sub_cancel]
      by_cases h2 : n / 2 = 0
      · rw [ih.1 h2]
        have : n = 1 := by omega
        subst this
        simp
      · obtain ⟨l, r⟩ := ih.2 h2
        have hpos : 1 ≤ bitLen fuel (n / 2) := by
          rcases Nat.eq_zero_or_pos (bitLen fuel (n / 2)) with h0 | h0
          · rw [h0] at r; simp at r; omega
          · exact h0
        constructor
        · have : 2 ^ bitLen fuel (n / 2) = 2 * 2 ^ (bitLen fuel (n / 2) - 1) := by
            rw [← pow_succ']; congr 1; omega
          omega
        · rw [pow_succ]; omega

theorem bits_lower {n : Nat} (h : n ≠ 0) : 2 ^ (bits n - 1) ≤ n :=
  ((bitLen_spec n n (le_refl n)).2 h).1

theorem bits_upper (n : Nat) : n < 2 ^ bits n := by
  by_cases h : n = 0
  · subst h; simp
  · exact ((bitLen_spec n n (le_refl n)).2 h).2

/-- Rounding an integer to a multiple of `2 ^ sh` the way `roundTo53` does moves
it by at most half that unit. -/
theorem round_shift (n sh : Nat) (hsh : 1 ≤ sh) :
    |(((if 2 ^ (sh - 1) < n % 2 ^ sh ∨ (n % 2 ^ sh = 2 ^ (sh - 1) ∧ n / 2 ^ sh % 2 = 1)
        then n / 2 ^ sh + 1 else n / 2 ^ sh : Nat) : ℚ) * 2 ^ sh - n)|
      ≤ ((2 ^ (sh - 1) : Nat) : ℚ) := by
  have hP : (2 : Nat) ^ sh = 2 * 2 ^ (sh - 1) := by
    rw [← pow_succ']; congr 1; omega
  have hdiv : n = 2 ^ sh * (n / 2 ^ sh) + n % 2 ^ sh := (Nat.div_add_mod n (2 ^ sh)).symm
  have hr : n % 2 ^ sh < 2 ^ sh := Nat.mod_lt _ (by positivity)
  generalize n / 2 ^ sh = qh at hdiv ⊢
  generalize n % 2 ^ sh = r at hdiv hr ⊢
  generalize (2 : Nat) ^ (sh - 1) = half at hP hr ⊢
  have hPq : ((2 : ℚ) ^ sh) = 2 * (half : ℚ) := by exact_mod_cast hP
  have hnq : (n : ℚ) = 2 * (half : ℚ) * qh + r := by
    rw [hdiv, hP]; push_cast; ring
  have hrq : (r : ℚ) < 2 * half := by
    rw [hP] at hr; exact_mod_cast hr
  have hr0 : (0 : ℚ) ≤ r := Nat.cast_nonneg r
  rw [hPq, hnq, abs_le]
  split
  · rename_i h
    have hle : (half : ℚ) ≤ r := by
      rcases h with h | h
      · exact_mod_cast h.le
      · rw [h.1]
    push_cast
    constructor <;> nlinarith
  · rename_i h
    have hle : (r : ℚ) ≤ half := by
      have : r ≤ half := by
        by_contra hc
        exact h (Or.inl (by omega))
      exact_mod_cast this
    constructor <;> nlinarith

theorem val_mk (m e : Int) : val ⟨m, e⟩ = (m : ℚ) * (2 : ℚ) ^ e := rfl

theorem withSign_cast (m : Int) (q : Nat) :
    ((withSign m q : Int) : ℚ) = (if m < 0 then -1 else 1) * (q : ℚ) := by
  unfold withSign
  split <;> simp

theorem natAbs_cast (m : Int) : (m : ℚ) = (if m < 0 then -1 else 1) * (m.natAbs : ℚ) := by
  have habs : (m.natAbs : ℚ) = |(m : ℚ)| := by rw [Nat.cast_natAbs, Int.cast_abs]
  rw [habs]
  split
  · rename_i h
    have : (m : ℚ) < 0 := by exact_mod_cast h
    rw [abs_of_neg this]; ring
  · rename_i h
    have : (0 : ℚ) ≤ m := by exact_mod_cast (not_lt.mp h)
    rw [abs_of_nonneg this]; ring

/-- The result of `roundTo53` differs from the exact value by at most the
fraction `2 ^ (-53)` of it. -/
theorem roundTo53_approx (m e : Int) :
    |val (roundTo53 m e) - (m : ℚ) * (2 : ℚ) ^ e| ≤ 1 / 2 ^ 53 * |(m : ℚ) * (2 : ℚ) ^ e| := by
  unfold roundTo53
  split
  · rename_i h0
    have : m = 0 := by omega
    subst this
    simp [val_mk]
  · split
    · simp only [val_mk, sub_self, abs_zero]
      positivity
    · rename_i h0 h53
      have hsh : 1 ≤ bits m.natAbs - 53 := by omega
      have hlow := bits_lower h0
      have hround := round_shift m.natAbs (bits m.natAbs - 53) hsh
      generalize hq : (if 2 ^ (bits m.natAbs - 53 - 1) < m.natAbs % 2 ^ (bits m.natAbs - 53) ∨
          (m.natAbs % 2 ^ (bits m.natAbs - 53) = 2 ^ (bits m.natAbs - 53 - 1) ∧
            m.natAbs / 2 ^ (bits m.natAbs - 53) % 2 = 1)
        then m.natAbs / 2 ^ (bits m.natAbs - 53) + 1 else m.natAbs / 2 ^ (bits m.natAbs - 53)) = q
        at hround
      simp only [val_mk, hq]
      have hbig : ((2 ^ (bits m.natAbs - 53 - 1) : Nat) : ℚ) * 2 ^ 53 ≤ (m.natAbs : ℚ) := by
        have : 2 ^ (bits m.natAbs - 53 - 1) * 2 ^ 53 ≤ m.natAbs := by
          rw [← pow_add]
          have : bits m.natAbs - 53 - 1 + 53 = bits m.natAbs - 1 := by omega
          rw [this]; exact hlow
        exact_mod_cast this
      generalize bits m.natAbs - 53 = sh at hsh hround hbig ⊢
      have he : (2 : ℚ) ^ (e + (sh : Int)) = 2 ^ e * 2 ^ sh := by
        rw [zpow_add₀ (by norm_num), zpow_natCast]
      have hpe : (0 : ℚ) < 2 ^ e := by positivity
      rw [withSign_cast, he, natAbs_cast m]
      have hsgn : |(if m < 0 then (-1 : ℚ) else 1)| = 1 := by split <;> simp
      have e1 : (if m < 0 then (-1 : ℚ) else 1) * (q : ℚ) * (2 ^ e * 2 ^ sh)
          - (if m < 0 then (-1 : ℚ) else 1) * (m.natAbs : ℚ) * 2 ^ e
          = (if m < 0 then (-1 : ℚ) else 1) * (((q : ℚ) * 2 ^ sh - m.natAbs) * 2 ^ e) := by ring
      rw [e1, abs_mul, hsgn, one_mul, abs_mul, abs_mul, abs_mul, hsgn, one_mul,
        abs_of_pos hpe, Nat.abs_cast]
      have h2 : |(q : ℚ) * 2 ^ sh - m.natAbs| ≤ 1 / 2 ^ 53 * (m.natAbs : ℚ) := by
        refine hround.trans ?_
        rw [div_mul_eq_mul_div, one_mul, le_div_iff₀ (by positivity)]
        exact hbig
      calc |(q : ℚ) * 2 ^ sh - m.natAbs| * 2 ^ e
          ≤ (1 / 2 ^ 53 * (m.natAbs : ℚ)) * 2 ^ e := mul_le_mul_of_nonneg_right h2 hpe.le
        _ = 1 / 2 ^ 53 * ((m.natAbs : ℚ) * 2 ^ e) := by ring

theorem approx_of_round (m e : Int) (q : ℚ) (h : (m : ℚ) * (2 : ℚ) ^ e = q) :
    Approx (roundTo53 m e) q := by
  have := roundTo53_approx m e
  rw [h] at this
  unfold Approx eps
  refine this.trans ?_
  apply mul_le_mul_of_nonneg_right _ (abs_nonneg q)
  norm_num

theorem shl_cast (m k : Int) (hk : 0 ≤ k) : ((shl m k : Int) : ℚ) = (m : ℚ) * (2 : ℚ) ^ k := by
  obtain ⟨n, rfl⟩ := Int.eq_ofNat_of_zero_le hk
  unfold shl
  push_cast
  rw [Int.toNat_ofNat, zpow_natCast]

theorem shl_mul_zpow (m a e : Int) (h : e ≤ a) :
    ((shl m (a - e) : Int) : ℚ) * (2 : ℚ) ^ e = (m : ℚ) * (2 : ℚ) ^ a := by
  rw [shl_cast m (a - e) (by omega), mul_assoc, ← zpow_add₀ (by norm_num : (2 : ℚ) ≠ 0)]
  congr 2
  omega

theorem fadd_approx (a b : Fl) : Approx (fadd a b) (val a + val b) := by
  apply approx_of_round
  push_cast
  rw [add_mul, shl_mul_zpow _ _ _ (min_le_left _ _), shl_mul_zpow _ _ _ (min_le_right _ _)]
  rfl

theorem fsub_approx (a b : Fl) : Approx (fsub a b) (val a - val b) := by
  apply approx_of_round
  push_cast
  rw [sub_mul, shl_mul_zpow _ _ _ (min_le_left _ _), shl_mul_zpow _ _ _ (min_le_right _ _)]
  rfl

theorem fmul_approx (a b : Fl) : Approx (fmul a b) (val a * val b) := by
  apply approx_of_round
  push_cast
  rw [zpow_add₀ (by norm_num : (2 : ℚ) ≠ 0)]
  unfold val
  ring

theorem ofInt_approx (n : Int) : Approx (ofInt n) n := by
  apply approx_of_round
  simp

theorem flt_iff (a b : Fl) : flt a b = true ↔ val a < val b := by
  unfold flt
  rw [decide_eq_true_iff]
  have hp : (0 : ℚ) < (2 : ℚ) ^ (min a.e b.e) := by positivity
  have ha := shl_mul_zpow a.m a.e _ (min_le_left a.e b.e)
  have hb := shl_mul_zpow b.m b.e _ (min_le_right a.e b.e)
  unfold val
  rw [← ha, ← hb, mul_lt_mul_right hp]
  exact Int.cast_lt.symm

theorem bits_pos {n : Nat} (h : n ≠ 0) : 1 ≤ bits n := by
  have := bits_upper n
  rcases Nat.eq_zero_or_pos (bits n) with h0 | h0
  · rw [h0] at this; simp at this; exact absurd this h
  · exact h0

theorem divShift_big (a b : Fl) (ha : a.m.natAbs ≠ 0) :
    2 ^ 54 * b.m.natAbs ≤ a.m.natAbs * 2 ^ divShift a b := by
  have h1 := bits_lower ha
  have h2 := bits_upper b.m.natAbs
  have h3 := bits_pos ha
  have hk : bits b.m.natAbs + 55 ≤ divShift a b + bits a.m.natAbs := by
    unfold divShift; omega
  calc 2 ^ 54 * b.m.natAbs ≤ 2 ^ 54 * 2 ^ bits b.m.natAbs :=
        Nat.mul_le_mul_left _ h2.le
    _ = 2 ^ (bits b.m.natAbs + 54) := by rw [← pow_add]; congr 1; omega
    _ ≤ 2 ^ (bits a.m.natAbs - 1 + divShift a b) := Nat.pow_le_pow_right (by decide) (by omega)
    _ = 2 ^ (bits a.m.natAbs - 1) * 2 ^ divShift a b := by rw [pow_add]
    _ ≤ a.m.natAbs * 2 ^ divShift a b := Nat.mul_le_mul_right _ h1

theorem sign_sq (m : Int) : (if m < 0 then (-1 : ℚ) else 1) * (if m < 0 then (-1 : ℚ) else 1) = 1 := by
  split <;> norm_num

theorem sign_abs (m : Int) : |(if m < 0 then (-1 : ℚ) else 1)| = 1 := by
  split <;> simp

/-- The quotient before rounding: twice the integer quotient plus a sticky bit
is within the fraction `2 ^ (-55)` of the exact quotient. -/
theorem quotient_close (na nb k : Nat) (hb : nb ≠ 0) (hbig : 2 ^ 54 * nb ≤ na * 2 ^ k) :
    |((2 * (na * 2 ^ k / nb) + (if na * 2 ^ k % nb = 0 then 0 else 1) : Nat) : ℚ)
        - 2 * ((na : ℚ) * 2 ^ k / nb)|
      ≤ 1 / 2 ^ 55 * (2 * ((na : ℚ) * 2 ^ k / nb)) := by
  have hdiv : na * 2 ^ k = nb * (na * 2 ^ k / nb) + na * 2 ^ k % nb :=
    (Nat.div_add_mod _ _).symm
  have hr : na * 2 ^ k % nb < nb := Nat.mod_lt _ (Nat.pos_of_ne_zero hb)
  have hcast : ((na : ℚ) * 2 ^ k) = ((na * 2 ^ k : Nat) : ℚ) := by push_cast; rfl
  rw [hcast]
  generalize na * 2 ^ k = n at hdiv hr hbig ⊢
  generalize n / nb = q at hdiv ⊢
  generalize n % nb = r at hdiv hr ⊢
  have hnb : (0 : ℚ) < nb := by exact_mod_cast Nat.pos_of_ne_zero hb
  have hn : (n : ℚ) = nb * q + r := by exact_mod_cast hdiv
  have hbigq : (2 : ℚ) ^ 54 * nb ≤ n := by exact_mod_cast hbig
  have hrq : (r : ℚ) < nb := by exact_mod_cast hr
  have hr0 : (0 : ℚ) ≤ r := Nat.cast_nonneg r
  have hT : (2 : ℚ) ^ 54 ≤ (n : ℚ) / nb := by
    rw [le_div_iff₀ hnb]; exact hbigq
  have hTeq : (n : ℚ) / nb = q + r / nb := by
    rw [hn]; field_simp; ring
  have hfrac0 : (0 : ℚ) ≤ r / nb := div_nonneg hr0 hnb.le
  have hfrac1 : (r : ℚ) / nb < 1 := by rw [div_lt_one hnb]; exact hrq
  have hone : |((2 * q + (if r = 0 then 0 else 1) : Nat) : ℚ) - 2 * ((n : ℚ) / nb)| ≤ 1 := by
    rw [hTeq, abs_le]
    split
    · rename_i h0
      subst h0
      push_cast
      constructor <;> norm_num
    · push_cast
      constructor <;> linarith
  refine hone.trans ?_
  have : (1 : ℚ) = 1 / 2 ^ 55 * (2 * 2 ^ 54) := by norm_num
  calc (1 : ℚ) = 1 / 2 ^ 55 * (2 * 2 ^ 54) := this
    _ ≤ 1 / 2 ^ 55 * (2 * ((n : ℚ) / nb)) := by
      apply mul_le_mul_of_nonneg_left _ (by positivity)
      linarith

theorem fdiv_approx (a b : Fl) (hb : b.m ≠ 0) : Approx (fdiv a b) (val a / val b) := by
  have hnb : b.m.natAbs ≠ 0 := by omega
  have hnbq : (0 : ℚ) < b.m.natAbs := by exact_mod_cast Nat.pos_of_ne_zero hnb
  by_cases ha : a.m.natAbs = 0
  · have ha0 : a.m = 0 := by omega
    have : fdiv a b = ⟨0, 0⟩ := by
      unfold fdiv
      simp [ha, roundTo53]
    rw [this]
    unfold Approx val
    simp [ha0]
  · have hbig := divShift_big a b ha
    have hclose := quotient_close a.m.natAbs b.m.natAbs (divShift a b) hnb hbig
    unfold fdiv
    generalize hN : (2 * (a.m.natAbs * 2 ^ divShift a b / b.m.natAbs)
        + (if a.m.natAbs * 2 ^ divShift a b % b.m.natAbs = 0 then 0 else 1)) = N at hclose ⊢
    have hround := roundTo53_approx (withSign a.m 1 * withSign b.m 1 * (N : Int))
      (a.e - b.e - (divShift a b : Int) - 1)
    generalize roundTo53 (withSign a.m 1 * withSign b.m 1 * (N : Int))
      (a.e - b.e - (divShift a b : Int) - 1) = R at hround ⊢
    have hE : (2 : ℚ) ^ (a.e - b.e - (divShift a b : Int) - 1) * (2 * 2 ^ divShift a b)
        = 2 ^ a.e / 2 ^ b.e := by
      rw [show a.e - b.e - (divShift a b : Int) - 1 = a.e + -b.e + -(divShift a b : Int) + -1 by ring,
        zpow_add₀ (by norm_num), zpow_add₀ (by norm_num), zpow_add₀ (by norm_num),
        zpow_neg, zpow_neg, zpow_neg, zpow_natCast]
      have : (2 : ℚ) ^ divShift a b ≠ 0 := by positivity
      field_simp
      ring
    have htE : (0 : ℚ) < (2 : ℚ) ^ (a.e - b.e - (divShift a b : Int) - 1) := by positivity
    generalize (2 : ℚ) ^ (a.e - b.e - (divShift a b : Int) - 1) = tE at hround hE htE
    have hs := sign_abs a.m
    have hs2 := sign_abs b.m
    have hsb := sign_sq b.m
    have hma := natAbs_cast a.m
    have hmb := natAbs_cast b.m
    have hcast : ((withSign a.m 1 * withSign b.m 1 * (N : Int) : Int) : ℚ)
        = (if a.m < 0 then (-1 : ℚ) else 1) * (if b.m < 0 then (-1 : ℚ) else 1) * N := by
      push_cast
      rw [withSign_cast, withSign_cast]
      push_cast
      ring
    have hna0 : (0 : ℚ) ≤ a.m.natAbs := Nat.cast_nonneg _
    have hQ : val a / val b
        = (if a.m < 0 then (-1 : ℚ) else 1) * (if b.m < 0 then (-1 : ℚ) else 1)
          * ((2 * ((a.m.natAbs : ℚ) * 2 ^ divShift a b / b.m.natAbs)) * tE) := by
      have hsbne : (if b.m < 0 then (-1 : ℚ) else 1) ≠ 0 := by split <;> norm_num
      have hpb : (2 : ℚ) ^ b.e ≠ 0 := by positivity
      have hpk : (2 : ℚ) ^ divShift a b ≠ 0 := by positivity
      have hinv : (if b.m < 0 then (-1 : ℚ) else 1)⁻¹ = (if b.m < 0 then (-1 : ℚ) else 1) := by
        split <;> norm_num
      unfold val
      rw [hma, hmb]
      have : (2 : ℚ) ^ a.e = tE * (2 * 2 ^ divShift a b) * 2 ^ b.e := by
        rw [hE]; field_simp
      rw [this, div_eq_mul_inv, mul_inv, mul_inv, hinv]
      field_simp
      ring_nf
    rw [hcast] at hround
    rw [hQ]
    generalize (if a.m < 0 then (-1 : ℚ) else 1) = sa at hs hround ⊢
    generalize (if b.m < 0 then (-1 : ℚ) else 1) = sb at hs2 hround ⊢
    generalize (2 * ((a.m.natAbs : ℚ) * 2 ^ divShift a b / b.m.natAbs)) = X at hclose ⊢
    have hX : 0 ≤ X := by
      by_contra hc
      push_neg at hc
      have h1 := abs_nonneg ((N : ℚ) - X)
      have h2 : 1 / 2 ^ 55 * X < 0 := mul_neg_of_pos_of_neg (by positivity) hc
      linarith
    have habsP : |sa * sb * (N : ℚ) * tE| = (N : ℚ) * tE := by
      rw [abs_mul, abs_mul, abs_mul, hs, hs2, one_mul, one_mul, Nat.abs_cast, abs_of_pos htE]
    have habsQ : |sa * sb * (X * tE)| = X * tE := by
      rw [abs_mul, abs_mul, hs, hs2, one_mul, one_mul, abs_mul, abs_of_nonneg hX, abs_of_pos htE]
    have hPQ : |sa * sb * (N : ℚ) * tE - sa * sb * (X * tE)| ≤ 1 / 2 ^ 55 * X * tE := by
      have : sa * sb * (N : ℚ) * tE - sa * sb * (X * tE) = sa * sb * (((N : ℚ) - X) * tE) := by ring
      rw [this, abs_mul, abs_mul, hs, hs2, one_mul, one_mul, abs_mul, abs_of_pos htE]
      exact mul_le_mul_of_nonneg_right hclose htE.le
    have hN : (N : ℚ) ≤ X + 1 / 2 ^ 55 * X := by
      have := (abs_le.mp hclose).2
      linarith
    rw [habsP] at hround
    unfold Approx eps
    rw [habsQ]
    have htri : |val R - sa * sb * (X * tE)|
        ≤ |val R - sa * sb * (N : ℚ) * tE| + |sa * sb * (N : ℚ) * tE - sa * sb * (X * tE)| := by
      have : val R - sa * sb * (X * tE)
          = (val R - sa * sb * (N : ℚ) * tE) + (sa * sb * (N : ℚ) * tE - sa * sb * (X * tE)) := by
        ring
      rw [this]
      exact abs_add _ _
    have hXt : 0 ≤ X * tE := mul_nonneg hX htE.le
    have hNt : (N : ℚ) * tE ≤ X * tE + 1 / 2 ^ 55 * (X * tE) := by
      have := mul_le_mul_of_nonneg_right hN htE.le
      linarith
    have hPQ2 : |sa * sb * (N : ℚ) * tE - sa * sb * (X * tE)| ≤ 1 / 2 ^ 55 * (X * tE) := by
      linarith
    generalize X * tE = Y at hXt hNt hPQ2 htri ⊢
    generalize (N : ℚ) * tE = Z at hround hNt
    have h53 : (1 : ℚ) / 2 ^ 53 * Z ≤ 1 / 2 ^ 53 * (Y + 1 / 2 ^ 55 * Y) :=
      mul_le_mul_of_nonneg_left hNt (by positivity)
    have hfin : (1 : ℚ) / 2 ^ 53 * (Y + 1 / 2 ^ 55 * Y) + 1 / 2 ^ 55 * Y ≤ 1 / 2 ^ 52 * Y := by
      have : (1 : ℚ) / 2 ^ 52 * Y - (1 / 2 ^ 53 * (Y + 1 / 2 ^ 55 * Y) + 1 / 2 ^ 55 * Y)
          = (1 / 2 ^ 52 - 1 / 2 ^ 53 - 1 / 2 ^ 108 - 1 / 2 ^ 55) * Y := by ring
      have hc : (0 : ℚ) ≤ 1 / 2 ^ 52 - 1 / 2 ^ 53 - 1 / 2 ^ 108 - 1 / 2 ^ 55 := by norm_num
      have := mul_nonneg hc hXt
      linarith
    linarith

/-! ### Consequences of an approximation -/

theorem eps_pos : 0 < eps := by unfold eps; positivity

theorem Approx.bounds {x : Fl} {q : ℚ} (h : Approx x q) :
    q - eps * |q| ≤ val x ∧ val x ≤ q + eps * |q| := by
  have := abs_le.mp h
  constructor <;> linarith

theorem Approx.abs_le {x : Fl} {q c : ℚ} (h : Approx x q) (hq : |q| ≤ c) :
    |val x| ≤ c * (1 + eps) := by
  have h1 : |val x| ≤ |val x - q| + |q| := by
    have : val x = (val x - q) + q := by ring
    rw [this]; exact (abs_add _ _).trans (by rw [← this])
  have h2 : eps * |q| ≤ eps * c := mul_le_mul_of_nonneg_left hq eps_pos.le
  unfold Approx at h
  linarith

theorem Approx.nonneg {x : Fl} {q : ℚ} (h : Approx x q) (hq : 0 ≤ q) : 0 ≤ val x := by
  have := h.bounds.1
  rw [abs_of_nonneg hq] at this
  have he : eps ≤ 1 := by unfold eps; norm_num
  nlinarith

theorem Approx.nonpos {x : Fl} {q : ℚ} (h : Approx x q) (hq : q ≤ 0) : val x ≤ 0 := by
  have := h.bounds.2
  rw [abs_of_nonpos hq] at this
  have he : eps ≤ 1 := by unfold eps; norm_num
  nlinarith

theorem Approx.le {x : Fl} {q c : ℚ} (h : Approx x q) (hq : q ≤ c) (hc : 0 ≤ c) :
    val x ≤ c * (1 + eps) := by
  rcases le_or_lt 0 q with h0 | h0
  · have := h.bounds.2
    rw [abs_of_nonneg h0] at this
    have := mul_le_mul_of_nonneg_right hq (by linarith [eps_pos] : (0 : ℚ) ≤ 1 + eps)
    linarith
  · have := h.nonpos h0.le
    have := mul_nonneg hc (by linarith [eps_pos] : (0 : ℚ) ≤ 1 + eps)
    linarith

theorem Approx.ge {x : Fl} {q c : ℚ} (h : Approx x q) (hq : c ≤ q) (hc : 0 ≤ c) :
    c * (1 - eps) ≤ val x := by
  have h0 : 0 ≤ q := hc.trans hq
  have := h.bounds.1
  rw [abs_of_nonneg h0] at this
  have he : eps ≤ 1 := by unfold eps; norm_num
  have := mul_le_mul_of_nonneg_right hq (by linarith : (0 : ℚ) ≤ 1 - eps)
  linarith

theorem Approx.ge_neg {x : Fl} {q c : ℚ} (h : Approx x q) (hq : -c ≤ q) (hc : 0 ≤ c) :
    -(c * (1 + eps)) ≤ val x := by
  rcases le_or_lt 0 q with h0 | h0
  · have := h.nonneg h0
    have := mul_nonneg hc (by linarith [eps_pos] : (0 : ℚ) ≤ 1 + eps)
    linarith
  · have := h.bounds.1
    rw [abs_of_neg h0] at this
    have := mul_le_mul_of_nonneg_right hq (by linarith [eps_pos] : (0 : ℚ) ≤ 1 + eps)
    linarith

/-- A lower bound of the shape `a * K - b` survives a rounding with slightly
worse constants. -/
theorem Approx.lin {x : Fl} {q a b K : ℚ} (h : Approx x q) (hq : a * K - b ≤ q)
    (ha : 0 ≤ a) (hb : 0 ≤ b) (hK : 0 ≤ K) : a * (1 - eps) * K - b * (1 + eps) ≤ val x := by
  have he := eps_pos
  have he1 : eps ≤ 1 := by unfold eps; norm_num
  have haK : 0 ≤ a * K := mul_nonneg ha hK
  rcases le_or_lt 0 q with h0 | h0
  · have := h.bounds.1
    rw [abs_of_nonneg h0] at this
    have h1 := mul_le_mul_of_nonneg_right hq (by linarith : (0 : ℚ) ≤ 1 - eps)
    have h2 : 0 ≤ eps * b := mul_nonneg he.le hb
    nlinarith
  · have := h.bounds.1
    rw [abs_of_neg h0] at this
    have h1 := mul_le_mul_of_nonneg_right hq (by linarith : (0 : ℚ) ≤ 1 + eps)
    have h2 : 0 ≤ eps * (a * K) := mul_nonneg he.le haK
    nlinarith

/-! ### Range reduction -/

theorem val_pos_m {x : Fl} (h : 0 < val x) : 0 < x.m := by
  unfold val at h
  have h2 : (0 : ℚ) < 2 ^ x.e := by positivity
  have := (mul_pos_iff_of_pos_right h2).mp h
  exact_mod_cast this

theorem val_two : val ⟨2, 0⟩ = 2 := by norm_num [val]

theorem val_one : val ⟨1, 0⟩ = 1 := by norm_num [val]

theorem val_half : val ⟨1, -1⟩ = 1 / 2 := by norm_num [val]

theorem val_SqrtHalf : val SqrtHalf = 6369051672525773 / 9007199254740992 := by
  norm_num [val, SqrtHalf]

theorem frexp_spec (x : Fl) (hx : 0 < val x) :
    val x = val (mathFrexp x).1 * 2 ^ (mathFrexp x).2 ∧
      1 / 2 ≤ val (mathFrexp x).1 ∧ val (mathFrexp x).1 < 1 := by
  have hm := val_pos_m hx
  have hm0 : x.m ≠ 0 := by omega
  have hn0 : x.m.natAbs ≠ 0 := by omega
  have hlo := bits_lower hn0
  have hhi := bits_upper x.m.natAbs
  have hb := bits_pos hn0
  have hmn : (x.m : ℚ) = (x.m.natAbs : ℚ) := by
    rw [Nat.cast_natAbs, Int.cast_abs, abs_of_pos (by exact_mod_cast hm)]
  have hloq : ((2 : ℚ) ^ (bits x.m.natAbs - 1)) ≤ (x.m.natAbs : ℚ) := by exact_mod_cast hlo
  have hhiq : (x.m.natAbs : ℚ) < (2 : ℚ) ^ (bits x.m.natAbs) := by exact_mod_cast hhi
  have hsplit : (2 : ℚ) ^ (bits x.m.natAbs) = 2 * 2 ^ (bits x.m.natAbs - 1) := by
    conv_lhs => rw [show bits x.m.natAbs = (bits x.m.natAbs - 1) + 1 by omega]
    rw [pow_succ]; ring
  have hp : (0 : ℚ) < 2 ^ (bits x.m.natAbs) := by positivity
  simp only [mathFrexp, if_neg hm0, val]
  rw [zpow_neg, zpow_natCast, hmn]
  refine ⟨?_, ?_, ?_⟩
  · rw [zpow_add₀ (by norm_num : (2 : ℚ) ≠ 0), zpow_natCast]
    field_simp
    ring
  · rw [← div_eq_mul_inv, le_div_iff₀ hp]
    linarith
  · rw [← div_eq_mul_inv, div_lt_one hp]
    exact hhiq

theorem reduce_spec (x : Fl) (hx : 0 < val x) :
    ∃ g : ℚ, val x = g * 2 ^ (logReduce x).2 ∧ val SqrtHalf ≤ g ∧ g < 2 * val SqrtHalf ∧
      Approx (logReduce x).1 g := by
  obtain ⟨h1, h2, h3⟩ := frexp_spec x hx
  have hS := val_SqrtHalf
  by_cases hlt : flt (mathFrexp x).1 SqrtHalf = true
  · have hv := (flt_iff _ _).mp hlt
    have hexact : Approx (fmul (mathFrexp x).1 ⟨2, 0⟩) (2 * val (mathFrexp x).1) := by
      have := fmul_approx (mathFrexp x).1 ⟨2, 0⟩
      rwa [val_two, mul_comm] at this
    refine ⟨2 * val (mathFrexp x).1, ?_, ?_, ?_, ?_⟩
    · simp only [logReduce, if_pos hlt]
      rw [h1, zpow_sub₀ (by norm_num : (2 : ℚ) ≠ 0)]
      field_simp
      ring
    · rw [hS]; linarith
    · linarith
    · simp only [logReduce, if_pos hlt]
      exact hexact
  · refine ⟨val (mathFrexp x).1, ?_, ?_, ?_, ?_⟩
    · simp only [logReduce, if_neg hlt]
      exact h1
    · have := (flt_iff (mathFrexp x).1 SqrtHalf).not.mp hlt
      linarith
    · rw [hS]; linarith
    · simp only [logReduce, if_neg hlt]
      unfold Approx
      rw [sub_self, abs_zero]
      exact mul_nonneg eps_pos.le (abs_nonneg _)

/-! ### Ceiling -/

theorem mathCeil_spec (x : Fl) : mathCeil x = ⌈val x⌉ := by
  unfold mathCeil val
  split_ifs with h
  · obtain ⟨n, hn⟩ := Int.eq_ofNat_of_zero_le h
    rw [hn, shl, Int.toNat_ofNat, zpow_natCast]
    have : (x.m : ℚ) * 2 ^ n = ((x.m * ((2 ^ n : Nat) : Int) : Int) : ℚ) := by push_cast; ring
    rw [this, Int.ceil_intCast]
  · have hneg : x.e < 0 := by omega
    obtain ⟨n, hn⟩ := Int.eq_ofNat_of_zero_le (by omega : 0 ≤ -x.e)
    have he : x.e = -(n : Int) := by omega
    rw [hn, Int.toNat_ofNat, he, zpow_neg, zpow_natCast, ← div_eq_mul_inv]
    have h1 : ((x.m : ℚ) / 2 ^ n) = -((((-x.m : Int) : ℚ)) / ((2 ^ n : Nat) : ℚ)) := by
      push_cast; ring
    rw [h1, Int.ceil_neg, Rat.floor_intCast_div_natCast]

/-! ### Ranges of the intermediate results of one evaluation of the logarithm -/

theorem fmul_range {a b : Fl} {ca cb c : ℚ} (ha0 : 0 ≤ val a) (ha : val a ≤ ca)
    (hb0 : 0 ≤ val b) (hb : val b ≤ cb) (hc : ca * cb * (1 + eps) ≤ c) :
    0 ≤ val (fmul a b) ∧ val (fmul a b) ≤ c := by
  have h := fmul_approx a b
  have hq0 : 0 ≤ val a * val b := mul_nonneg ha0 hb0
  have hq : val a * val b ≤ ca * cb := mul_le_mul ha hb hb0 (ha0.trans ha)
  exact ⟨h.nonneg hq0, (h.le hq (hq0.trans hq)).trans hc⟩

theorem fadd_range {a b : Fl} {ca cb c : ℚ} (ha0 : 0 ≤ val a) (ha : val a ≤ ca)
    (hb0 : 0 ≤ val b) (hb : val b ≤ cb) (hc : (ca + cb) * (1 + eps) ≤ c) :
    0 ≤ val (fadd a b) ∧ val (fadd a b) ≤ c := by
  have h := fadd_approx a b
  have hq0 : 0 ≤ val a + val b := add_nonneg ha0 hb0
  have hq : val a + val b ≤ ca + cb := add_le_add ha hb
  exact ⟨h.nonneg hq0, (h.le hq (hq0.trans hq)).trans hc⟩

theorem val_L1 : 0 ≤ val L1 ∧ val L1 ≤ 66667 / 100000 := by
  constructor <;> norm_num [val, L1]

theorem val_L2 : 0 ≤ val L2 ∧ val L2 ≤ 4 / 10 := by
  constructor <;> norm_num [val, L2]

theorem val_L3 : 0 ≤ val L3 ∧ val L3 ≤ 2858 / 10000 := by
  constructor <;> norm_num [val, L3]

theorem val_L4 : 0 ≤ val L4 ∧ val L4 ≤ 22223 / 100000 := by
  constructor <;> norm_num [val, L4]

theorem val_L5 : 0 ≤ val L5 ∧ val L5 ≤ 1819 / 10000 := by
  constructor <;> norm_num [val, L5]

theorem val_L6 : 0 ≤ val L6 ∧ val L6 ≤ 1532 / 10000 := by
  constructor <;> norm_num [val, L6]

theorem val_L7 : 0 ≤ val L7 ∧ val L7 ≤ 148 / 1000 := by
  constructor <;> norm_num [val, L7]

theorem val_Ln2Hi : val Ln2Hi = 6243314766446592 / 9007199254740992 := by
  norm_num [val, Ln2Hi]

theorem val_Ln2Lo : 0 ≤ val Ln2Lo := by norm_num [val, Ln2Lo]

theorem logS_bound (f : Fl) (hlo : -(293 / 1000) ≤ val f) (hhi : val f ≤ 4143 / 10000) :
    |val (logS f)| ≤ 243 / 1000 := by
  have hden := fadd_approx ⟨2, 0⟩ f
  rw [val_two] at hden
  have hd1 : (1707 / 1000 : ℚ) * (1 - eps) ≤ val (fadd ⟨2, 0⟩ f) :=
    hden.ge (by linarith) (by norm_num)
  have hd2 : (1706 / 1000 : ℚ) ≤ val (fadd ⟨2, 0⟩ f) :=
    le_trans (by norm_num [eps]) hd1
  have hdpos : 0 < val (fadd ⟨2, 0⟩ f) := by linarith
  have hm : (fadd ⟨2, 0⟩ f).m ≠ 0 := by
    have := val_pos_m hdpos
    omega
  have hs := fdiv_approx f (fadd ⟨2, 0⟩ f) hm
  have hf : |val f| ≤ 4143 / 10000 := abs_le.mpr ⟨by linarith, hhi⟩
  have hq : |val f / val (fadd ⟨2, 0⟩ f)| ≤ 2429 / 10000 := by
    rw [abs_div, abs_of_pos hdpos, div_le_iff₀ hdpos]
    linarith
  exact (hs.abs_le hq).trans (by norm_num [eps])

theorem logR_bound (s : Fl) (hs : |val s| ≤ 243 / 1000) :
    0 ≤ val (logR s) ∧ val (logR s) ≤ 41 / 1000 := by
  have hs2a := fmul_approx s s
  have hq0 : 0 ≤ val s * val s := mul_self_nonneg _
  have hq1 : val s * val s ≤ 59049 / 1000000 := by
    have := abs_le.mp hs
    nlinarith
  have hs2 : 0 ≤ val (fmul s s) ∧ val (fmul s s) ≤ 591 / 10000 :=
    ⟨hs2a.nonneg hq0, (hs2a.le hq1 (by norm_num)).trans (by norm_num [eps])⟩
  have hs4 := fmul_range (c := 35 / 10000) hs2.1 hs2.2 hs2.1 hs2.2 (by norm_num [eps])
  have a7 := fmul_range (c := 52 / 100000) hs4.1 hs4.2 val_L7.1 val_L7.2 (by norm_num [eps])
  have b5 := fadd_range (c := 1825 / 10000) val_L5.1 val_L5.2 a7.1 a7.2 (by norm_num [eps])
  have a5 := fmul_range (c := 64 / 100000) hs4.1 hs4.2 b5.1 b5.2 (by norm_num [eps])
  have b3 := fadd_range (c := 2865 / 10000) val_L3.1 val_L3.2 a5.1 a5.2 (by norm_num [eps])
  have a3 := fmul_range (c := 101 / 100000) hs4.1 hs4.2 b3.1 b3.2 (by norm_num [eps])
  have b1 := fadd_range (c := 6677 / 10000) val_L1.1 val_L1.2 a3.1 a3.2 (by norm_num [eps])
  have t1 := fmul_range (c := 395 / 10000) hs2.1 hs2.2 b1.1 b1.2 (by norm_num [eps])
  have a6 := fmul_range (c := 54 / 100000) hs4.1 hs4.2 val_L6.1 val_L6.2 (by norm_num [eps])
  have b4 := fadd_range (c := 2228 / 10000) val_L4.1 val_L4.2 a6.1 a6.2 (by norm_num [eps])
  have a4 := fmul_range (c := 79 / 100000) hs4.1 hs4.2 b4.1 b4.2 (by norm_num [eps])
  have b2 := fadd_range (c := 4008 / 10000) val_L2.1 val_L2.2 a4.1 a4.2 (by norm_num [eps])
  have t2 := fmul_range (c := 141 / 100000) hs4.1 hs4.2 b2.1 b2.2 (by norm_num [eps])
  exact fadd_range t1.1 t1.2 t2.1 t2.2 (by norm_num [eps])

theorem logHfsq_bound (f : Fl) (hf : |val f| ≤ 4143 / 10000) :
    0 ≤ val (logHfsq f) ∧ val (logHfsq f) ≤ 859 / 10000 := by
  have h1 := fmul_approx ⟨1, -1⟩ f
  rw [val_half] at h1
  have h2 := fmul_approx (fmul ⟨1, -1⟩ f) f
  have hfb := abs_le.mp hf
  have hh : |val (fmul ⟨1, -1⟩ f)| ≤ 2072 / 10000 := by
    refine (h1.abs_le (c := 20715 / 100000) ?_).trans (by norm_num [eps])
    rw [abs_mul, abs_of_pos (by norm_num : (0 : ℚ) < 1 / 2)]
    linarith
  have hhb := abs_le.mp hh
  have hq0 : 0 ≤ val (fmul ⟨1, -1⟩ f) * val f := by
    rcases le_total 0 (val f) with h0 | h0
    · exact mul_nonneg (h1.nonneg (by linarith)) h0
    · exact mul_nonneg_of_nonpos_of_nonpos (h1.nonpos (by linarith)) h0
  have hq1 : val (fmul ⟨1, -1⟩ f) * val f ≤ 2072 / 10000 * (4143 / 10000) := by
    have : |val (fmul ⟨1, -1⟩ f) * val f| ≤ 2072 / 10000 * (4143 / 10000) := by
      rw [abs_mul]
      exact mul_le_mul hh hf (abs_nonneg _) (by norm_num)
    exact (le_abs_self _).trans this
  exact ⟨h2.nonneg hq0, (h2.le hq1 (by norm_num)).trans (by norm_num [eps])⟩

theorem one_sub_eps_nonneg : 0 ≤ 1 - eps := by norm_num [eps]

/-- One evaluation of the kernel of the logarithm is at least the leading term
`k * Ln2Hi`, rounded three times, minus 0.4101. -/
theorem logKernel_lower (f k : Fl) (K : ℚ) (hK : 0 ≤ K) (hk : Approx k K)
    (hlo : -(293 / 1000) ≤ val f) (hhi : val f ≤ 4143 / 10000) :
    val Ln2Hi * (1 - eps) * (1 - eps) * (1 - eps) * K - 4101 / 10000 * (1 + eps)
      ≤ val (logKernel f k) := by
  have he := one_sub_eps_nonneg
  have hs := logS_bound f hlo hhi
  have hR := logR_bound _ hs
  have hH0 := logHfsq_bound f (abs_le.mpr ⟨by linarith, hhi⟩)
  have hH := fadd_range (c := 127 / 1000) hH0.1 hH0.2 hR.1 hR.2 (by norm_num [eps])
  have hE := fmul_approx (logS f) (fadd (logHfsq f) (logR (logS f)))
  have hEq : |val (logS f) * val (fadd (logHfsq f) (logR (logS f)))|
      ≤ 243 / 1000 * (127 / 1000) := by
    rw [abs_mul]
    exact mul_le_mul hs (by rw [abs_of_nonneg hH.1]; exact hH.2) (abs_nonneg _) (by norm_num)
  have hEb := abs_le.mp ((hE.abs_le hEq).trans (by norm_num [eps] :
    (243 / 1000 * (127 / 1000) * (1 + eps) : ℚ) ≤ 309 / 10000))
  have hk0 : 0 ≤ val k := hk.nonneg hK
  have hG := (fmul_approx k Ln2Lo).nonneg (mul_nonneg hk0 val_Ln2Lo)
  have hF := fadd_approx (fmul (logS f) (fadd (logHfsq f) (logR (logS f)))) (fmul k Ln2Lo)
  have hFl := le_trans (by norm_num [eps] : (-(31 / 1000) : ℚ) ≤ -(309 / 10000 * (1 + eps)))
    (hF.ge_neg (c := 309 / 10000) (by linarith) (by norm_num))
  have hC := fsub_approx (logHfsq f)
    (fadd (fmul (logS f) (fadd (logHfsq f) (logR (logS f)))) (fmul k Ln2Lo))
  have hCu := (hC.le (c := 1169 / 10000) (by linarith) (by norm_num)).trans
    (by norm_num [eps] : (1169 / 10000 * (1 + eps) : ℚ) ≤ 117 / 1000)
  have hB := fsub_approx (fsub (logHfsq f)
    (fadd (fmul (logS f) (fadd (logHfsq f) (logR (logS f)))) (fmul k Ln2Lo))) f
  have hBu := (hB.le (c := 41 / 100) (by linarith) (by norm_num)).trans
    (by norm_num [eps] : (41 / 100 * (1 + eps) : ℚ) ≤ 4101 / 10000)
  have hkl : K * (1 - eps) ≤ val k := hk.ge le_rfl hK
  have hL : 0 ≤ val Ln2Hi := by rw [val_Ln2Hi]; norm_num
  have hA := (fmul_approx k Ln2Hi).ge (c := K * (1 - eps) * val Ln2Hi)
    (mul_le_mul_of_nonneg_right hkl hL) (mul_nonneg (mul_nonneg hK he) hL)
  have hres := fsub_approx (fmul k Ln2Hi) (fsub (fsub (logHfsq f)
    (fadd (fmul (logS f) (fadd (logHfsq f) (logR (logS f)))) (fmul k Ln2Lo))) f)
  have hfin := hres.lin (a := val Ln2Hi * (1 - eps) * (1 - eps)) (b := 4101 / 10000) (K := K)
    (by
      have : val Ln2Hi * (1 - eps) * (1 - eps) * K = K * (1 - eps) * val Ln2Hi * (1 - eps) := by
        ring
      rw [this]
      linarith)
    (mul_nonneg (mul_nonneg hL he) he) (by norm_num) hK
  unfold logKernel
  exact hfin

theorem val_Ln2Lo_le : val Ln2Lo ≤ 2 / 10 ^ 10 := by norm_num [val, Ln2Lo]

/-- One evaluation of the kernel of the logarithm is at most the leading term
`k * Ln2Hi`, rounded three times, plus 0.4455, as long as `k` is at most 64. -/
theorem logKernel_upper (f k : Fl) (K : ℚ) (hK : 0 ≤ K) (hK64 : K ≤ 64) (hk : Approx k K)
    (hlo : -(293 / 1000) ≤ val f) (hhi : val f ≤ 4143 / 10000) :
    val (logKernel f k)
      ≤ (val Ln2Hi * (1 + eps) * (1 + eps) * K + 4455 / 10000) * (1 + eps) := by
  have he : (0 : ℚ) ≤ 1 + eps := by linarith [eps_pos]
  have hs := logS_bound f hlo hhi
  have hR := logR_bound _ hs
  have hH0 := logHfsq_bound f (abs_le.mpr ⟨by linarith, hhi⟩)
  have hH := fadd_range (c := 127 / 1000) hH0.1 hH0.2 hR.1 hR.2 (by norm_num [eps])
  have hE := fmul_approx (logS f) (fadd (logHfsq f) (logR (logS f)))
  have hEq : |val (logS f) * val (fadd (logHfsq f) (logR (logS f)))|
      ≤ 243 / 1000 * (127 / 1000) := by
    rw [abs_mul]
    exact mul_le_mul hs (by rw [abs_of_nonneg hH.1]; exact hH.2) (abs_nonneg _) (by norm_num)
  have hEb := abs_le.mp ((hE.abs_le hEq).trans (by norm_num [eps] :
    (243 / 1000 * (127 / 1000) * (1 + eps) : ℚ) ≤ 309 / 10000))
  have hk0 : 0 ≤ val k := hk.nonneg hK
  have hku : val k ≤ K * (1 + eps) := hk.le le_rfl hK
  have hku64 : val k ≤ 64 * (1 + eps) := hku.trans (mul_le_mul_of_nonneg_right hK64 he)
  have hGq : val k * val Ln2Lo ≤ 64 * (1 + eps) * (2 / 10 ^ 10) :=
    mul_le_mul hku64 val_Ln2Lo_le val_Ln2Lo (by norm_num [eps])
  have hG := ((fmul_approx k Ln2Lo).le hGq (by norm_num [eps])).trans
    (by norm_num [eps] : (64 * (1 + eps) * (2 / 10 ^ 10) * (1 + eps) : ℚ) ≤ 1 / 10 ^ 7)
  have hF := fadd_approx (fmul (logS f) (fadd (logHfsq f) (logR (logS f)))) (fmul k Ln2Lo)
  have hFu := (hF.le (c := 309 / 10000 + 1 / 10 ^ 7) (by linarith) (by norm_num)).trans
    (by norm_num [eps] : ((309 / 10000 + 1 / 10 ^ 7) * (1 + eps) : ℚ) ≤ 31 / 1000)
  have hC := fsub_approx (logHfsq f)
    (fadd (fmul (logS f) (fadd (logHfsq f) (logR (logS f)))) (fmul k Ln2Lo))
  have hCl := le_trans (by norm_num [eps] : (-(311 / 10000) : ℚ) ≤ -(31 / 1000 * (1 + eps)))
    (hC.ge_neg (c := 31 / 1000) (by linarith) (by norm_num))
  have hB := fsub_approx (fsub (logHfsq f)
    (fadd (fmul (logS f) (fadd (logHfsq f) (logR (logS f)))) (fmul k Ln2Lo))) f
  have hBl := le_trans (by norm_num [eps] : (-(4455 / 10000) : ℚ) ≤ -(4454 / 10000 * (1 + eps)))
    (hB.ge_neg (c := 4454 / 10000) (by linarith) (by norm_num))
  have hL : 0 ≤ val Ln2Hi := by rw [val_Ln2Hi]; norm_num
  have hA := (fmul_approx k Ln2Hi).le (c := K * (1 + eps) * val Ln2Hi)
    (mul_le_mul_of_nonneg_right hku hL) (mul_nonneg (mul_nonneg hK he) hL)
  have hres := fsub_approx (fmul k Ln2Hi) (fsub (fsub (logHfsq f)
    (fadd (fmul (logS f) (fadd (logHfsq f) (logR (logS f)))) (fmul k Ln2Lo))) f)
  have hfin := hres.le (c := val Ln2Hi * (1 + eps) * (1 + eps) * K + 4455 / 10000)
    (by
      have : val Ln2Hi * (1 + eps) * (1 + eps) * K = K * (1 + eps) * val Ln2Hi * (1 + eps) := by
        ring
      rw [this]
      linarith)
    (add_nonneg (mul_nonneg (mul_nonneg (mul_nonneg hL he) he) hK) (by norm_num))
  unfold logKernel
  exact hfin

/-! ### The reduced exponent of a positive integer argument -/

theorem reduce_ofInt (ms : Int) (h1 : 1 ≤ ms) :
    0 ≤ (logReduce (ofInt ms)).2 ∧
      (ms : ℚ) < 2 * 2 ^ (logReduce (ofInt ms)).2 ∧
      (2 : ℚ) ^ (logReduce (ofInt ms)).2 < 2 * ms ∧
      -(293 / 1000) ≤ val (fsub (logReduce (ofInt ms)).1 ⟨1, 0⟩) ∧
      val (fsub (logReduce (ofInt ms)).1 ⟨1, 0⟩) ≤ 4143 / 10000 := by
  have hx := ofInt_approx ms
  have hms1 : (1 : ℚ) ≤ ms := by exact_mod_cast h1
  have hms0 : (0 : ℚ) ≤ ms := by linarith
  have hxl : (ms : ℚ) * (1 - eps) ≤ val (ofInt ms) := hx.ge le_rfl hms0
  have hxu : val (ofInt ms) ≤ (ms : ℚ) * (1 + eps) := hx.le le_rfl hms0
  have he1 := one_sub_eps_nonneg
  have hpos : 0 < val (ofInt ms) := by
    have : (1 : ℚ) * (1 - eps) ≤ ms * (1 - eps) := mul_le_mul_of_nonneg_right hms1 he1
    have : (0 : ℚ) < 1 - eps := by norm_num [eps]
    linarith
  obtain ⟨g, hg, hg1, hg2, hga⟩ := reduce_spec _ hpos
  rw [val_SqrtHalf] at hg1 hg2
  have hP : (0 : ℚ) < 2 ^ (logReduce (ofInt ms)).2 := by positivity
  have hgpos : 0 < g := by linarith
  have hgP1 : 6369051672525773 / 9007199254740992 * 2 ^ (logReduce (ofInt ms)).2
      ≤ g * 2 ^ (logReduce (ofInt ms)).2 := mul_le_mul_of_nonneg_right hg1 hP.le
  have hgP2 : g * 2 ^ (logReduce (ofInt ms)).2
      < 2 * (6369051672525773 / 9007199254740992) * 2 ^ (logReduce (ofInt ms)).2 :=
    mul_lt_mul_of_pos_right hg2 hP
  refine ⟨?_, ?_, ?_, ?_, ?_⟩
  · by_contra hneg
    have hle : (logReduce (ofInt ms)).2 ≤ -1 := by omega
    have hPle : (2 : ℚ) ^ (logReduce (ofInt ms)).2 ≤ 2 ^ (-1 : Int) :=
      zpow_le_zpow_right₀ (by norm_num) hle
    have h21 : (2 : ℚ) ^ (-1 : Int) = 1 / 2 := by norm_num
    rw [h21] at hPle
    have : (1 : ℚ) * (1 - eps) ≤ ms * (1 - eps) := mul_le_mul_of_nonneg_right hms1 he1
    unfold eps at *
    linarith
  · by_contra hcon
    have hcon2 : 2 * (2 : ℚ) ^ (logReduce (ofInt ms)).2 ≤ ms := not_lt.mp hcon
    have := mul_le_mul_of_nonneg_right hcon2 he1
    unfold eps at *
    linarith
  · by_contra hcon
    have hcon2 : 2 * (ms : ℚ) ≤ 2 ^ (logReduce (ofInt ms)).2 := not_lt.mp hcon
    have := mul_le_mul_of_nonneg_right hcon2 (by linarith [eps_pos] : (0 : ℚ) ≤ 1 + eps)
    unfold eps at *
    linarith
  · have hr1 : 7071 / 10000 * (1 - eps) ≤ val (logReduce (ofInt ms)).1 :=
      hga.ge (by linarith) (by norm_num)
    have hf := fsub_approx (logReduce (ofInt ms)).1 ⟨1, 0⟩
    rw [val_one] at hf
    have hr1' : (7071 / 10000 : ℚ) * (1 - eps) - 1 ≥ -(2929001 / 10000000) := by
      norm_num [eps]
    exact le_trans (by norm_num [eps]) (hf.ge_neg (c := 2929001 / 10000000) (by linarith)
      (by norm_num))
  · have hr2 : val (logReduce (ofInt ms)).1
        ≤ 2 * (6369051672525773 / 9007199254740992) * (1 + eps) :=
      hga.le hg2.le (by norm_num)
    have hf := fsub_approx (logReduce (ofInt ms)).1 ⟨1, 0⟩
    rw [val_one] at hf
    have hr2' : (2 * (6369051672525773 / 9007199254740992) * (1 + eps) : ℚ) - 1
        ≤ 41422 / 100000 := by norm_num [eps]
    exact (hf.le (c := 41422 / 100000) (by linarith) (by norm_num)).trans (by norm_num [eps])

/-! ### The quotient `log ms / log 2` -/

set_option maxRecDepth 1000000 in
theorem mathLog_two : mathLog (ofInt 2) = ⟨6243314768165359, -53⟩ := by decide

theorem val_mathLog_two : val (mathLog (ofInt 2)) = 6243314768165359 / 9007199254740992 := by
  rw [mathLog_two]; norm_num [val]

theorem quotient_lower (ms : Int) (h1 : 1 ≤ ms) :
    (1 - 1 / 10 ^ 9) * ((logReduce (ofInt ms)).2 : ℚ) - 6 / 10
      ≤ val (fdiv (mathLog (ofInt ms)) (mathLog (ofInt 2))) := by
  obtain ⟨hK0, -, -, hlo, hhi⟩ := reduce_ofInt ms h1
  have hKq : (0 : ℚ) ≤ ((logReduce (ofInt ms)).2 : ℚ) := by exact_mod_cast hK0
  have hker := logKernel_lower _ _ _ hKq (ofInt_approx (logReduce (ofInt ms)).2) hlo hhi
  have hm : (mathLog (ofInt 2)).m ≠ 0 := by rw [mathLog_two]; decide
  have hq := fdiv_approx (mathLog (ofInt ms)) (mathLog (ofInt 2)) hm
  rw [val_mathLog_two] at hq
  have hc2 : (0 : ℚ) < 6243314768165359 / 9007199254740992 := by norm_num
  have hdiv : val Ln2Hi * (1 - eps) * (1 - eps) * (1 - eps)
        / (6243314768165359 / 9007199254740992) * ((logReduce (ofInt ms)).2 : ℚ)
      - 4101 / 10000 * (1 + eps) / (6243314768165359 / 9007199254740992)
      ≤ val (mathLog (ofInt ms)) / (6243314768165359 / 9007199254740992) := by
    have := div_le_div_of_nonneg_right hker hc2.le
    have hre : val Ln2Hi * (1 - eps) * (1 - eps) * (1 - eps)
        / (6243314768165359 / 9007199254740992) * ((logReduce (ofInt ms)).2 : ℚ)
      - 4101 / 10000 * (1 + eps) / (6243314768165359 / 9007199254740992)
      = (val Ln2Hi * (1 - eps) * (1 - eps) * (1 - eps) * ((logReduce (ofInt ms)).2 : ℚ)
          - 4101 / 10000 * (1 + eps)) / (6243314768165359 / 9007199254740992) := by
      ring
    rw [hre]
    exact this
  have hlin := hq.lin hdiv (by rw [val_Ln2Hi]; norm_num [eps]) (by norm_num [eps]) hKq
  have ha : (1 - 1 / 10 ^ 9 : ℚ) ≤ val Ln2Hi * (1 - eps) * (1 - eps) * (1 - eps)
        / (6243314768165359 / 9007199254740992) * (1 - eps) := by
    rw [val_Ln2Hi]; norm_num [eps]
  have hb : (4101 / 10000 * (1 + eps) / (6243314768165359 / 9007199254740992) * (1 + eps) : ℚ)
      ≤ 6 / 10 := by norm_num [eps]
  have := mul_le_mul_of_nonneg_right ha hKq
  linarith

theorem quotient_upper (ms : Int) (h1 : 1 ≤ ms) (h64 : (logReduce (ofInt ms)).2 ≤ 64) :
    val (fdiv (mathLog (ofInt ms)) (mathLog (ofInt 2)))
      ≤ ((logReduce (ofInt ms)).2 : ℚ) + 7 / 10 := by
  obtain ⟨hK0, -, -, hlo, hhi⟩ := reduce_ofInt ms h1
  have hKq : (0 : ℚ) ≤ ((logReduce (ofInt ms)).2 : ℚ) := by exact_mod_cast hK0
  have hK64 : ((logReduce (ofInt ms)).2 : ℚ) ≤ 64 := by exact_mod_cast h64
  have hker := logKernel_upper _ _ _ hKq hK64 (ofInt_approx (logReduce (ofInt ms)).2) hlo hhi
  have hm : (mathLog (ofInt 2)).m ≠ 0 := by rw [mathLog_two]; decide
  have hq := fdiv_approx (mathLog (ofInt ms)) (mathLog (ofInt 2)) hm
  rw [val_mathLog_two] at hq
  have hc2 : (0 : ℚ) < 6243314768165359 / 9007199254740992 := by norm_num
  have hdiv := div_le_div_of_nonneg_right hker hc2.le
  have he : (0 : ℚ) ≤ 1 + eps := by linarith [eps_pos]
  have hL : 0 ≤ val Ln2Hi := by rw [val_Ln2Hi]; norm_num
  have hU0 : 0 ≤ (val Ln2Hi * (1 + eps) * (1 + eps) * ((logReduce (ofInt ms)).2 : ℚ)
      + 4455 / 10000) * (1 + eps) / (6243314768165359 / 9007199254740992) :=
    div_nonneg (mul_nonneg (add_nonneg (mul_nonneg (mul_nonneg (mul_nonneg hL he) he) hKq)
      (by norm_num)) he) hc2.le
  have hle := hq.le hdiv hU0
  have hre : (val Ln2Hi * (1 + eps) * (1 + eps) * ((logReduce (ofInt ms)).2 : ℚ)
        + 4455 / 10000) * (1 + eps) / (6243314768165359 / 9007199254740992) * (1 + eps)
      = (val Ln2Hi * (1 + eps) * (1 + eps) * (1 + eps) * (1 + eps)
          / (6243314768165359 / 9007199254740992)) * ((logReduce (ofInt ms)).2 : ℚ)
        + 4455 / 10000 * (1 + eps) * (1 + eps) / (6243314768165359 / 9007199254740992) := by
    ring
  rw [hre] at hle
  have ha : val Ln2Hi * (1 + eps) * (1 + eps) * (1 + eps) * (1 + eps)
      / (6243314768165359 / 9007199254740992) ≤ 1 := by
    rw [val_Ln2Hi]; norm_num [eps]
  have hb : (4455 / 10000 * (1 + eps) * (1 + eps) / (6243314768165359 / 9007199254740992) : ℚ)
      ≤ 7 / 10 := by norm_num [eps]
  have := mul_le_mul_of_nonneg_right ha hKq
  linarith

/-! ### The ceiling of the quotient -/

/-- The float64 expression of the constructor is never negative on a retention
of at least one millisecond. -/
theorem ceilLog2_nonneg (ms : Int) (h1 : 1 ≤ ms) : 0 ≤ ceilLog2 ms := by
  obtain ⟨hK0, -, -, -, -⟩ := reduce_ofInt ms h1
  have hKq : (0 : ℚ) ≤ ((logReduce (ofInt ms)).2 : ℚ) := by exact_mod_cast hK0
  have hq := quotient_lower ms h1
  have hlt : (((-1 : Int) : ℚ)) < val (fdiv (mathLog (ofInt ms)) (mathLog (ofInt 2))) := by
    have : (0 : ℚ) ≤ (1 - 1 / 10 ^ 9) * ((logReduce (ofInt ms)).2 : ℚ) :=
      mul_nonneg (by norm_num) hKq
    push_cast
    linarith
  have := Int.lt_ceil.mpr hlt
  simp only [ceilLog2, if_pos h1, mathCeil_spec]
  omega

/-- The float64 expression of the constructor is within one of the exact
integer ceiling logarithm, for every int64 number of milliseconds. -/
theorem ceilLog2_clog (ms : Int) (h1 : 1 ≤ ms) (h2 : ms < 2 ^ 63) :
    (Nat.clog 2 ms.toNat : Int) ≤ ceilLog2 ms + 1 ∧
      ceilLog2 ms ≤ (Nat.clog 2 ms.toNat : Int) + 1 := by
  obtain ⟨hK0, hlt, hgt, -, -⟩ := reduce_ofInt ms h1
  obtain ⟨n, hn⟩ := Int.eq_ofNat_of_zero_le hK0
  have hmsn : ms = (ms.toNat : Int) := by omega
  have hmsq : (ms : ℚ) = (ms.toNat : ℚ) := by
    conv_lhs => rw [hmsn]
    push_cast; rfl
  rw [hn, zpow_natCast, hmsq] at hlt hgt
  have hltN : ms.toNat < 2 * 2 ^ n := by exact_mod_cast hlt
  have hgtN : 2 ^ n < 2 * ms.toNat := by exact_mod_cast hgt
  have hc1 : Nat.clog 2 ms.toNat ≤ n + 1 := by
    apply (Nat.le_pow_iff_clog_le (by norm_num)).mp
    rw [pow_succ]; omega
  have hc2 : n ≤ Nat.clog 2 ms.toNat := by
    have hle := Nat.le_pow_clog (by norm_num : 1 < 2) ms.toNat
    have : 2 ^ n < 2 ^ (Nat.clog 2 ms.toNat + 1) := by rw [pow_succ]; omega
    have := (Nat.pow_lt_pow_iff_right (by norm_num : 1 < 2)).mp this
    omega
  have hn64 : n < 64 := by
    have hms : ms.toNat < 2 ^ 63 := by omega
    have : 2 ^ n < 2 ^ 64 := by
      have : (2 : Nat) ^ 64 = 2 * 2 ^ 63 := by norm_num
      omega
    exact (Nat.pow_lt_pow_iff_right (by norm_num : 1 < 2)).mp this
  have hK64 : (logReduce (ofInt ms)).2 ≤ 64 := by omega
  have hlo := quotient_lower ms h1
  have hhi := quotient_upper ms h1 hK64
  rw [hn] at hlo hhi
  have hnq : (n : ℚ) ≤ 64 := by exact_mod_cast (by omega : n ≤ 64)
  have hn0 : (0 : ℚ) ≤ (n : ℚ) := Nat.cast_nonneg n
  have h3 : (((n : Int) - 1 : Int) : ℚ) < val (fdiv (mathLog (ofInt ms)) (mathLog (ofInt 2))) := by
    push_cast at hlo ⊢
    linarith
  have h4 : val (fdiv (mathLog (ofInt ms)) (mathLog (ofInt 2))) ≤ (((n : Int) + 1 : Int) : ℚ) := by
    push_cast at hhi ⊢
    linarith
  have h5 := Int.lt_ceil.mpr h3
  have h6 := Int.ceil_le.mpr h4
  simp only [ceilLog2, if_pos h1, mathCeil_spec]
  omega

set_option maxRecDepth 1000000 in
theorem ceilLog2_hour : ceilLog2 3600000 = 22 := by decide

set_option maxRecDepth 1000000 in
theorem ceilLog2_two_pow_29 : ceilLog2 536870912 = 30 := by decide

set_option maxRecDepth 1000000 in
theorem ceilLog2_zero : ceilLog2 0 = -9223372036854775808 := by decide

set_option maxRecDepth 1000000 in
theorem timeLengthOf_hour : timeLengthOf (some hourNanos) = 3 := by decide

set_option maxRecDepth 1000000 in
theorem timeLengthOf_binary : timeLengthOf (some binaryNanos) = 5 := by decide

/-- The constructor stores the width `timeLengthOf ret`. -/
theorem NewPushGenerator_timeLength (r : Option (Nat → Int)) (ret : Option Int) (nowNano : Int)
    (newRand : Int → Nat → Int) :
    (NewPushGenerator r ret nowNano newRand)._timeLength = timeLengthOf ret := rfl

/-- Claim C10 (timestamp-width formula) fails on the code.  For the retention
of one hour used by the tests, 3,600,000 ms, the ceiling of the binary logarithm
is 22 and the constructor sets the width to `22 / 6 = 3` by integer division,
whereas `ceil(22 / 6) = 4` is the least `k` with `3600000 ≤ 64 ^ k`. -/
theorem c10_hour_width_truncated :
    Milliseconds 3600000000000 = 3600000 ∧
    ceilLog2 3600000 = 22 ∧
    (NewPushGenerator none (some 3600000000000) 0 (fun _ _ => 0))._timeLength = 3 ∧
    ¬ (3600000 ≤ 64 ^ 3) ∧ 3600000 ≤ 64 ^ 4 ∧ Nat.clog 64 3600000 = 4 := by
  have hc : ceilLog2 3600000 = 22 := ceilLog2_hour
  refine ⟨by decide, hc, ?_, by norm_num, by norm_num, ?_⟩
  · rw [NewPushGenerator_timeLength]
    exact timeLengthOf_hour
  · apply le_antisymm
    · exact (Nat.le_pow_iff_clog_le (by decide)).mp (by norm_num)
    · exact (Nat.pow_lt_iff_lt_clog (by decide)).mp (by norm_num)

/-- Claim C13 (alphabet order).  The constant `pushChars` has exactly 64
entries (64 bytes, all ASCII), they are pairwise distinct, the byte value of
entry `i` is strictly less than that of entry `i + 1` for every `i < 63`, and
consequently for digits `a < b` in `[0, 64)` the lookups `pushChars[a]` and
`pushChars[b]` succeed and the first byte is less than the second. -/
theorem c13_alphabet_order :
    pushChars.data.length = 64 ∧ pushChars.utf8ByteSize = 64 ∧
    (∀ c ∈ pushChars.data, c.toNat < 128) ∧
    pushChars.data.Nodup ∧
    (∀ i : Fin 63, (pushChars.data.getD i.val zeroByte).toNat
        < (pushChars.data.getD (i.val + 1) zeroByte).toNat) ∧
    (∀ a b : Int, 0 ≤ a → a < b → b < 64 →
      ∃ ca cb, pushAt a = some ca ∧ pushAt b = some cb ∧ ca.toNat < cb.toNat ∧ ca < cb) := by
  refine ⟨by decide, by decide, by decide, by decide, by decide, ?_⟩
  intro a b ha hab hb
  obtain ⟨m, rfl⟩ := Int.eq_ofNat_of_zero_le ha
  obtain ⟨n, rfl⟩ := Int.eq_ofNat_of_zero_le (by omega : 0 ≤ b)
  have hmn : m < n := by omega
  have hn : n < 64 := by omega
  have hlt := pushChar_lt hmn hn
  exact ⟨pushChar m, pushChar n, pushAt_natCast m (by omega), pushAt_natCast n hn, hlt, hlt⟩

/-- Witness of `c13_alphabet_order`: the digits 10 and 11 are the characters
`9` and `A`. -/
theorem c13_alphabet_order_witness :
    pushAt 10 = some '9' ∧ pushAt 11 = some 'A' ∧
    ∃ ca cb, pushAt 10 = some ca ∧ pushAt 11 = some cb ∧ ca.toNat < cb.toNat ∧ ca < cb :=
  ⟨by decide, by decide, c13_alphabet_order.2.2.2.2.2 10 11 (by decide) (by decide) (by decide)⟩

/-! ## Constructed generators and runs of calls -/

theorem timeLengthOf_nonneg (ret : Option Int) (hret : ∀ d, ret = some d → 1 ≤ Milliseconds d) :
    0 ≤ timeLengthOf ret := by
  cases ret with
  | none => decide
  | some d =>
    have h := hret d rfl
    exact Int.tdiv_nonneg (ceilLog2_nonneg _ h) (by decide)

/-- The entropy vector the constructor draws has six digits, each in `[0, 64)`
when the random source keeps the contract of `Intn(64)`. -/
theorem NewPushGenerator_entropy (r : Option (Nat → Int)) (ret : Option Int) (nowNano : Int)
    (newRand : Int → Nat → Int)
    (hr : ∀ src, r = some src → ∀ i, 0 ≤ src i ∧ src i < 64)
    (hn : ∀ seed i, 0 ≤ newRand seed i ∧ newRand seed i < 64) :
    (NewPushGenerator r ret nowNano newRand).last.length = 6 ∧
    (NewPushGenerator r ret nowNano newRand)._lastLength = 6 ∧
    DigitsOk (NewPushGenerator r ret nowNano newRand).last := by
  refine ⟨by simp [NewPushGenerator], rfl, ?_⟩
  intro d hd
  simp only [NewPushGenerator, List.mem_map] at hd
  obtain ⟨i, _, rfl⟩ := hd
  cases r with
  | none => exact hn _ i
  | some src => exact hr src rfl i

/-- A generator built with no retention, or with one of at least a millisecond,
from a random source that keeps the contract of `Intn(64)` is well-formed. -/
theorem NewPushGenerator_wellFormed (r : Option (Nat → Int)) (ret : Option Int) (nowNano : Int)
    (newRand : Int → Nat → Int)
    (hr : ∀ src, r = some src → ∀ i, 0 ≤ src i ∧ src i < 64)
    (hn : ∀ seed i, 0 ≤ newRand seed i ∧ newRand seed i < 64)
    (hret : ∀ d, ret = some d → 1 ≤ Milliseconds d) :
    WellFormed (NewPushGenerator r ret nowNano newRand) where
  time_nonneg := timeLengthOf_nonneg ret hret
  last_pos := by
    show (0 : Int) < 6
    decide
  last_len := by
    rw [(NewPushGenerator_entropy r ret nowNano newRand hr hn).1]; rfl
  digits := (NewPushGenerator_entropy r ret nowNano newRand hr hn).2.2

/-- The tie-break step never panics when the entropy vector has `_lastLength`
digits in `[0, 64)`. -/
theorem tieBreak_entropy (pg : PushGenerator) (now : Int)
    (hl : (pg.last.length : Int) = pg._lastLength) (hd : DigitsOk pg.last) :
    tieBreak pg now = some (nextLast pg now) := by
  have hl2 : pg._lastLength.toNat = pg.last.length := by omega
  unfold tieBreak nextLast
  split
  · rw [hl2]; simpa using incLoop_spec pg.last [] hd
  · rfl

/-- A run of calls changes neither the seed, the retention nor the widths. -/
theorem generateAll_frame : ∀ (ts : List Int) (pg pg' : PushGenerator) (ids : List (List Char)),
    generateAll pg ts = some (ids, pg') →
    pg'.seed = pg.seed ∧ pg'.ret = pg.ret ∧ pg'._timeLength = pg._timeLength ∧
      pg'._lastLength = pg._lastLength ∧ ids.length = ts.length
  | [], pg, pg', ids, h => by
    simp only [generateAll, Option.some.injEq, Prod.mk.injEq] at h
    obtain ⟨rfl, rfl⟩ := h
    exact ⟨rfl, rfl, rfl, rfl, rfl⟩
  | t :: ts, pg, pg', ids, h => by
    simp only [generateAll, Option.bind_eq_bind, Option.bind_eq_some, Option.some.injEq,
      Prod.mk.injEq, Prod.exists] at h
    obtain ⟨id, pg1, h1, ids1, pg2, h2, rfl, rfl⟩ := h
    obtain ⟨now, last, _, _, rfl, _⟩ := Generate_state h1
    obtain ⟨e1, e2, e3, e4, e5⟩ := generateAll_frame ts _ _ _ h2
    exact ⟨e1, e2, e3, e4, by simp [e5]⟩

/-- A run of calls keeps the number of entropy digits and their range. -/
theorem generateAll_entropy : ∀ (ts : List Int) (pg pg' : PushGenerator) (ids : List (List Char)),
    (pg.last.length : Int) = pg._lastLength → DigitsOk pg.last →
    generateAll pg ts = some (ids, pg') →
    pg'.last.length = pg.last.length ∧ DigitsOk pg'.last
  | [], pg, pg', ids, _, hd, h => by
    simp only [generateAll, Option.some.injEq, Prod.mk.injEq] at h
    obtain ⟨_, rfl⟩ := h
    exact ⟨rfl, hd⟩
  | t :: ts, pg, pg', ids, hl, hd, h => by
    simp only [generateAll, Option.bind_eq_bind, Option.bind_eq_some, Option.some.injEq,
      Prod.mk.injEq, Prod.exists] at h
    obtain ⟨id, pg1, h1, ids1, pg2, h2, _, rfl⟩ := h
    obtain ⟨now, last, _, ht, rfl, _⟩ := Generate_state h1
    rw [tieBreak_entropy pg now hl hd] at ht
    cases ht
    have hlen := nextLast_length pg now
    obtain ⟨e1, e2⟩ := generateAll_entropy ts _ _ _
      (by show ((nextLast pg now).length : Int) = pg._lastLength; rw [hlen]; exact hl)
      (nextLast_digitsOk pg now hd) h2
    exact ⟨e1.trans hlen, e2⟩

/-- On a well-formed state every run of calls at non-negative clock readings
returns, provided a configured retention is not shorter than a millisecond. -/
theorem generateAll_total : ∀ (ts : List Int) (pg : PushGenerator), WellFormed pg →
    (∀ d, pg.ret = some d → Milliseconds d ≠ 0) → (∀ t ∈ ts, 0 ≤ t) →
    ∃ ids pg', generateAll pg ts = some (ids, pg') ∧ WellFormed pg'
  | [], pg, hw, _, _ => ⟨[], pg, rfl, hw⟩
  | t :: ts, pg, hw, hr, ht => by
    obtain ⟨now, hb⟩ := bucket_isSome pg t hr
    have h0 : 0 ≤ now := bucket_nonneg (ht t (by simp)) hb
    have hg := Generate_spec pg t now hw hb h0
    obtain ⟨ids, pg', h2, hw'⟩ := generateAll_total ts _ (WellFormed_next hw now) hr
      (fun u hu => ht u (by simp [hu]))
    refine ⟨idOf pg._timeLength.toNat now.toNat (nextLast pg now) :: ids, pg', ?_, hw'⟩
    simp only [generateAll, hg, h2, Option.bind_eq_bind, Option.some_bind]

theorem sample_source_ok : ∀ (seed : Int) (i : Nat),
    0 ≤ (fun (_ : Int) (_ : Nat) => (7 : Int)) seed i ∧
      (fun (_ : Int) (_ : Nat) => (7 : Int)) seed i < 64 :=
  fun _ _ => ⟨(by decide : (0 : Int) ≤ 7), (by decide : (7 : Int) < 64)⟩

/-- Claim C11 (Generate cannot fail) fails on the code for a positive retention
below one millisecond.  For a retention of 500 microseconds the retention's
millisecond length is 0, the reduction `now %= 0` divides by zero, and `Generate`
panics at every clock reading, whatever the timestamp width is. -/
theorem c11_sub_millisecond_retention_panics :
    0 < halfMilliNanos ∧ Milliseconds halfMilliNanos = 0 ∧
    bucket (NewPushGenerator none (some halfMilliNanos) 42 (fun _ _ => 7)) sampleClock = none ∧
    Generate (NewPushGenerator none (some halfMilliNanos) 42 (fun _ _ => 7)) sampleClock = none ∧
    ∀ tl : Int, Generate
      { NewPushGenerator none (some halfMilliNanos) 42 (fun _ _ => 7) with _timeLength := tl }
      sampleClock = none := by
  refine ⟨by decide, by decide, by decide, by decide, ?_⟩
  intro tl
  unfold Generate
  cases makeBytes (({ NewPushGenerator none (some halfMilliNanos) 42 (fun _ _ => 7) with
      _timeLength := tl } : PushGenerator)._timeLength
    + ({ NewPushGenerator none (some halfMilliNanos) 42 (fun _ _ => 7) with
      _timeLength := tl } : PushGenerator)._lastLength) with
  | none => rfl
  | some id => rfl

/-- Claim C11 as amended.  For every generator built by `NewPushGenerator` from a
random source that keeps the contract of `Intn(64)`, with no retention or with a
retention of at least one millisecond, every sequence of `Generate` calls at
non-negative clock readings completes without failure: the retention's
millisecond length is not zero, the ID buffer length is non-negative, and every
call returns its ID (an index out of range would be a panic). -/
theorem c11_generate_cannot_fail (r : Option (Nat → Int)) (ret : Option Int) (nowNano : Int)
    (newRand : Int → Nat → Int)
    (hr : ∀ src, r = some src → ∀ i, 0 ≤ src i ∧ src i < 64)
    (hn : ∀ seed i, 0 ≤ newRand seed i ∧ newRand seed i < 64)
    (hret : ∀ d, ret = some d → 1 ≤ Milliseconds d)
    (ts : List Int) (hts : ∀ t ∈ ts, 0 ≤ t) :
    (∀ d, (NewPushGenerator r ret nowNano newRand).ret = some d → Milliseconds d ≠ 0) ∧
    (∀ t, ∃ now, bucket (NewPushGenerator r ret nowNano newRand) t = some now) ∧
    0 ≤ (NewPushGenerator r ret nowNano newRand)._timeLength
      + (NewPushGenerator r ret nowNano newRand)._lastLength ∧
    ∃ ids pg', generateAll (NewPushGenerator r ret nowNano newRand) ts = some (ids, pg') ∧
      ids.length = ts.length ∧
      ∀ t, 0 ≤ t → ∃ id pg'', Generate pg' t = some (id, pg'') := by
  have hw := NewPushGenerator_wellFormed r ret nowNano newRand hr hn hret
  have hne : ∀ d, (NewPushGenerator r ret nowNano newRand).ret = some d → Milliseconds d ≠ 0 := by
    intro d hd
    have := hret d hd
    omega
  refine ⟨hne, fun t => bucket_isSome _ t hne, ?_, ?_⟩
  · have h1 := hw.time_nonneg
    have h2 := hw.last_pos
    omega
  · obtain ⟨ids, pg', h, hw'⟩ := generateAll_total ts _ hw hne hts
    obtain ⟨_, e, _, _, hlen⟩ := generateAll_frame ts _ _ _ h
    refine ⟨ids, pg', h, hlen, ?_⟩
    intro t ht
    exact Generate_total pg' t hw' ht (by rw [e]; exact hne)

/-- Witness of `c11_generate_cannot_fail`: the generator of the `rotate_hourly`
test case, called twice. -/
theorem c11_generate_cannot_fail_witness :
    (1 : Int) ≤ Milliseconds hourNanos ∧
    ∃ ids pg', generateAll (NewPushGenerator none (some hourNanos) 42 (fun _ _ => 7))
        [sampleClock, sampleClock + 1] = some (ids, pg') ∧
      ids.length = [sampleClock, sampleClock + 1].length ∧
      ∀ t, 0 ≤ t → ∃ id pg'', Generate pg' t = some (id, pg'') :=
  ⟨by decide,
    (c11_generate_cannot_fail none (some hourNanos) 42 (fun _ _ => 7)
      (fun _ h => by cases h) sample_source_ok
      (fun d hd => by cases hd; decide) [sampleClock, sampleClock + 1]
      (by decide)).2.2.2⟩

/-- Claim C12 (retention wrap).  For a generator with a retention of `R ≥ 1`
milliseconds and a clock reading `t ≥ 0`, the bucket computed at `t + R` equals
the bucket computed at `t`; hence an ID generated at `t + R`, in whatever later
state of the generator, has the same leading `_timeLength` characters (and the
same leading `_timeLength + 1` characters) as an ID generated at `t`. -/
theorem c12_retention_wrap (pg pg2 : PushGenerator) (d t : Int) (hw : WellFormed pg)
    (hw2 : WellFormed pg2) (hret : pg.ret = some d) (hret2 : pg2.ret = some d)
    (htl : pg2._timeLength = pg._timeLength) (hR : 1 ≤ Milliseconds d) (ht : 0 ≤ t) :
    bucket pg2 (t + Milliseconds d) = bucket pg t ∧
    ∃ id1 pg1 id2 pg3, Generate pg t = some (id1, pg1) ∧
      Generate pg2 (t + Milliseconds d) = some (id2, pg3) ∧
      id2.take pg._timeLength.toNat = id1.take pg._timeLength.toNat ∧
      id2.take (pg._timeLength.toNat + 1) = id1.take (pg._timeLength.toNat + 1) := by
  have hne : Milliseconds d ≠ 0 := by omega
  have hmod : Int.tmod (t + Milliseconds d) (Milliseconds d) = Int.tmod t (Milliseconds d) := by
    rw [Int.tmod_eq_emod (by omega) (by omega), Int.tmod_eq_emod ht (by omega),
      Int.add_emod_self]
  have hb1 : bucket pg t = some (Int.tmod t (Milliseconds d)) := by
    simp [bucket, hret, hne]
  have hb2 : bucket pg2 (t + Milliseconds d) = some (Int.tmod t (Milliseconds d)) := by
    simp [bucket, hret2, hne, hmod]
  have h0 : 0 ≤ Int.tmod t (Milliseconds d) := Int.tmod_nonneg _ ht
  refine ⟨by rw [hb1, hb2], _, _, _, _, Generate_spec pg t _ hw hb1 h0,
    Generate_spec pg2 _ _ hw2 hb2 h0, ?_, ?_⟩
  · rw [htl]
    simp only [idOf]
    rw [List.take_append_of_le_length (by simp [beDigits_length]),
      List.take_append_of_le_length (by simp [beDigits_length])]
  · rw [htl]
    simp only [idOf]
    rw [List.take_left' (by simp [beDigits_length]),
      List.take_left' (by simp [beDigits_length])]

/-- Witness of `c12_retention_wrap`: a generator with the retention of one hour
and width 3, called at the sample clock reading and one hour later. -/
theorem c12_retention_wrap_witness :
    (1 : Int) ≤ Milliseconds hourNanos ∧
    bucket sampleWrap (sampleClock + Milliseconds hourNanos) = bucket sampleWrap sampleClock ∧
    Generate sampleWrap sampleClock
      = some ("88w-zzzzz".data, { sampleWrap with stamp := 2400000 }) ∧
    Generate { sampleWrap with stamp := 2400000 } (sampleClock + 3600000)
      = some ("88w------".data, { sampleWrap with stamp := 2400000, last := [0, 0, 0, 0, 0, 1] }) :=
  ⟨by decide,
    (c12_retention_wrap sampleWrap sampleWrap hourNanos sampleClock
      ⟨by decide, by decide, by decide, by unfold DigitsOk; decide⟩
      ⟨by decide, by decide, by decide, by unfold DigitsOk; decide⟩
      rfl rfl rfl (by decide) (by decide)).1,
    by decide, by decide⟩

/-- Claim C14 (documented ID size) does not hold as stated.  The claim gives
every ID 20 characters; the generator built with no random source and no
retention, as in `TestPushGenerator`, has the widths 8 and 6 and returns the 14
characters `--OAqkdF-66666`, the length `_lastLength + _timeLength` the test
asserts. -/
theorem c14_default_id_has_14_characters :
    sampleDefault._timeLength = 8 ∧ sampleDefault._lastLength = 6 ∧
    Generate sampleDefault sampleClock
      = some ("--OAqkdF-66666".data, { sampleDefault with stamp := sampleClock }) ∧
    ("--OAqkdF-66666".data).length = 14 ∧ ("--OAqkdF-66666".data).length ≠ 20 := by
  refine ⟨?_, ?_, ?_, ?_, ?_⟩ <;> decide

/-- Every ID of a run of calls has the length of the allocated buffer. -/
theorem generateAll_lengths : ∀ (ts : List Int) (pg pg' : PushGenerator)
    (ids : List (List Char)), generateAll pg ts = some (ids, pg') →
    ∀ id ∈ ids, (id.length : Int) = pg._timeLength + pg._lastLength
  | [], pg, pg', ids, h => by
    simp only [generateAll, Option.some.injEq, Prod.mk.injEq] at h
    obtain ⟨rfl, _⟩ := h
    intro id hid
    cases hid
  | t :: ts, pg, pg', ids, h => by
    simp only [generateAll, Option.bind_eq_bind, Option.bind_eq_some, Option.some.injEq,
      Prod.mk.injEq, Prod.exists] at h
    obtain ⟨id0, pg1, h1, ids1, pg2, h2, rfl, _⟩ := h
    obtain ⟨now, last, _, _, rfl, hlen⟩ := Generate_state h1
    have ih := generateAll_lengths ts _ _ _ h2
    intro id hid
    rcases List.mem_cons.mp hid with rfl | hid
    · exact hlen
    · exact ih id hid

/-- Claim C14 as amended.  Every ID returned by `Generate`, in any run of calls
on any generator, has exactly `_timeLength + _lastLength` characters; for the
generator constructed with no random source and no retention the widths are 8
and 6, every run of calls at non-negative clock readings returns its IDs, and
each of them has exactly 14 characters. -/
theorem c14_id_size (ts : List Int) :
    (∀ (pg pg' : PushGenerator) (ids : List (List Char)),
      generateAll pg ts = some (ids, pg') →
      ∀ id ∈ ids, (id.length : Int) = pg._timeLength + pg._lastLength) ∧
    ∀ (nowNano : Int) (newRand : Int → Nat → Int),
      (∀ seed i, 0 ≤ newRand seed i ∧ newRand seed i < 64) → (∀ t ∈ ts, 0 ≤ t) →
      ∃ ids pg', generateAll (NewPushGenerator none none nowNano newRand) ts = some (ids, pg') ∧
        ids.length = ts.length ∧ ∀ id ∈ ids, id.length = 14 := by
  refine ⟨fun pg pg' ids h => generateAll_lengths ts pg pg' ids h, ?_⟩
  intro nowNano newRand hn hts
  have hw := NewPushGenerator_wellFormed none none nowNano newRand (fun _ h => by cases h) hn
    (fun _ h => by cases h)
  obtain ⟨ids, pg', h, _⟩ := generateAll_total ts _ hw (fun _ h => by cases h) hts
  obtain ⟨_, _, _, _, hlen⟩ := generateAll_frame ts _ _ _ h
  refine ⟨ids, pg', h, hlen, ?_⟩
  intro id hid
  have := generateAll_lengths ts _ _ _ h id hid
  have h14 : (NewPushGenerator none none nowNano newRand)._timeLength
      + (NewPushGenerator none none nowNano newRand)._lastLength = 14 := rfl
  omega

/-- Witness of `c14_id_size`: the default sample generator called twice at the
sample clock reading returns two IDs of 14 characters. -/
theorem c14_id_size_witness :
    generateAll sampleDefault [sampleClock, sampleClock]
      = some (["--OAqkdF-66666".data, "--OAqkdF-66667".data],
          { sampleDefault with stamp := sampleClock, last := [8, 7, 7, 7, 7, 7] }) ∧
    ∃ ids pg', generateAll (NewPushGenerator none none 42 (fun _ _ => 7))
        [sampleClock, sampleClock] = some (ids, pg') ∧
      ids.length = [sampleClock, sampleClock].length ∧ ∀ id ∈ ids, id.length = 14 :=
  ⟨by decide,
    (c14_id_size [sampleClock, sampleClock]).2 42 (fun _ _ => 7) sample_source_ok (by decide)⟩

/-- Claim C15 (stable debug label).  The method `String` returns the base-10
rendering of the seed; the constructor records the clock reading as the seed
when it creates the random source and leaves the seed 0, rendered `0`, when the
caller supplies one; and a sequence of `Generate` calls changes neither the
seed, the timestamp width, the entropy width nor the retention, so `String`
returns the same value after it as before. -/
theorem c15_stable_debug_label (pg pg' : PushGenerator) (ts : List Int)
    (ids : List (List Char)) (h : generateAll pg ts = some (ids, pg')) :
    pg.String = Int.repr pg.seed ∧
    (∀ (r : Option (Nat → Int)) (ret : Option Int) (nowNano : Int) (newRand : Int → Nat → Int),
      pg = NewPushGenerator r ret nowNano newRand →
        (r = none → pg.seed = nowNano) ∧ (r ≠ none → pg.seed = 0 ∧ pg.String = "0")) ∧
    pg'.seed = pg.seed ∧ pg'._timeLength = pg._timeLength ∧ pg'._lastLength = pg._lastLength ∧
    pg'.ret = pg.ret ∧ pg'.String = pg.String := by
  obtain ⟨e1, e2, e3, e4, _⟩ := generateAll_frame ts pg pg' ids h
  refine ⟨rfl, ?_, e1, e3, e4, e2, ?_⟩
  · intro r ret nowNano newRand hpg
    subst hpg
    cases r with
    | none => exact ⟨fun _ => rfl, fun hne => absurd rfl hne⟩
    | some src => exact ⟨fun hn => (by cases hn), fun _ => ⟨rfl, rfl⟩⟩
  · unfold PushGenerator.String
    rw [e1]

/-- Witness of `c15_stable_debug_label`: the default sample generator, built
when the clock read 42 ns, has the label `42` before and after two calls. -/
theorem c15_stable_debug_label_witness :
    generateAll sampleDefault [sampleClock, sampleClock]
      = some (["--OAqkdF-66666".data, "--OAqkdF-66667".data],
          { sampleDefault with stamp := sampleClock, last := [8, 7, 7, 7, 7, 7] }) ∧
    sampleDefault.String = "42" ∧
    ({ sampleDefault with stamp := sampleClock, last := [8, 7, 7, 7, 7, 7] }
      : PushGenerator).String = sampleDefault.String :=
  ⟨by decide, by decide,
    (c15_stable_debug_label sampleDefault
      { sampleDefault with stamp := sampleClock, last := [8, 7, 7, 7, 7, 7] }
      [sampleClock, sampleClock] ["--OAqkdF-66666".data, "--OAqkdF-66667".data]
      (by decide)).2.2.2.2.2.2⟩

/-- Claim C17 (entropy-vector invariant).  In every state reached from
`NewPushGenerator`, given a random source whose `Intn(64)` returns values in
`[0, 64)`, by any sequence of `Generate` calls at any clock readings, the entropy
vector has exactly `_lastLength = 6` digits and every digit lies in `[0, 64)`;
the same holds for the vector the tie-break step of any further call writes. -/
theorem c17_entropy_invariant (r : Option (Nat → Int)) (ret : Option Int) (nowNano : Int)
    (newRand : Int → Nat → Int)
    (hr : ∀ src, r = some src → ∀ i, 0 ≤ src i ∧ src i < 64)
    (hn : ∀ seed i, 0 ≤ newRand seed i ∧ newRand seed i < 64)
    (ts : List Int) (ids : List (List Char)) (pg' : PushGenerator)
    (h : generateAll (NewPushGenerator r ret nowNano newRand) ts = some (ids, pg')) :
    pg'.last.length = 6 ∧ pg'._lastLength = 6 ∧ DigitsOk pg'.last ∧
    ∀ now, ∃ last, tieBreak pg' now = some last ∧ last.length = 6 ∧ DigitsOk last := by
  obtain ⟨h6, hl6, hd⟩ := NewPushGenerator_entropy r ret nowNano newRand hr hn
  obtain ⟨e1, e2⟩ := generateAll_entropy ts _ pg' ids (by rw [h6, hl6]; rfl) hd h
  obtain ⟨_, _, _, e4, _⟩ := generateAll_frame ts _ pg' ids h
  have hlen : pg'.last.length = 6 := e1.trans h6
  have hll : pg'._lastLength = 6 := e4.trans hl6
  refine ⟨hlen, hll, e2, ?_⟩
  intro now
  refine ⟨nextLast pg' now, tieBreak_entropy pg' now (by rw [hlen, hll]; rfl) e2, ?_,
    nextLast_digitsOk pg' now e2⟩
  rw [nextLast_length, hlen]

/-- Witness of `c17_entropy_invariant`: the default sample generator after two
calls at the sample clock reading holds the digits 8, 7, 7, 7, 7, 7. -/
theorem c17_entropy_invariant_witness :
    generateAll (NewPushGenerator none none 42 (fun _ _ => 7)) [sampleClock, sampleClock]
      = some (["--OAqkdF-66666".data, "--OAqkdF-66667".data],
          { sampleDefault with stamp := sampleClock, last := [8, 7, 7, 7, 7, 7] }) ∧
    DigitsOk ({ sampleDefault with stamp := sampleClock, last := [8, 7, 7, 7, 7, 7] }
      : PushGenerator).last :=
  ⟨by decide,
    (c17_entropy_invariant none none 42 (fun _ _ => 7) (fun _ h => by cases h) sample_source_ok
      [sampleClock, sampleClock] ["--OAqkdF-66666".data, "--OAqkdF-66667".data]
      { sampleDefault with stamp := sampleClock, last := [8, 7, 7, 7, 7, 7] }
      (by decide)).2.2.1⟩

/-! ## The layout of the returned string -/

theorem pushChars_getElem (k : Nat) (h : k < 64) : pushChars.data[k]? = some (pushChar k) := by
  rw [← getAt_natCast]
  exact pushAt_natCast k h

theorem beDigits_getElem : ∀ (k n j : Nat), j < k →
    (beDigits k n)[j]? = some (n / 64 ^ (k - 1 - j) % 64)
  | 0, _, _, h => by omega
  | k + 1, n, j, h => by
    simp only [beDigits]
    rcases Nat.lt_or_ge j k with hj | hj
    · rw [List.getElem?_append_left (by rw [beDigits_length]; exact hj),
        beDigits_getElem k (n / 64) j hj]
      have he : k + 1 - 1 - j = (k - 1 - j) + 1 := by omega
      rw [he, pow_succ, Nat.div_div_eq_div_mul, mul_comm]
    · have he : j = k := by omega
      subst he
      rw [List.getElem?_append_right (by rw [beDigits_length]), beDigits_length]
      simp

theorem digit_mod (n k e : Nat) (h : e < k) : n % 64 ^ k / 64 ^ e % 64 = n / 64 ^ e % 64 := by
  have hk : 64 ^ k = 64 ^ e * 64 ^ (k - e) := by
    rw [← pow_add]; congr 1; omega
  rw [hk, Nat.mod_mul_right_div_self]
  exact Nat.mod_mod_of_dvd _ (dvd_pow_self 64 (by omega))

theorem incList_snoc_take : ∀ (lo : List Int) (a : Int),
    (incList (lo ++ [a])).take lo.length = incList lo
  | [], a => by simp [incList]
  | d :: ds, a => by
    simp only [List.cons_append, incList, List.length_cons]
    split
    · simp
    · simp [incList_snoc_take ds a]

theorem length_six {α : Type} (l : List α) (h : l.length = 6) :
    ∃ a0 a1 a2 a3 a4 a5, l = [a0, a1, a2, a3, a4, a5] := by
  match l, h with
  | [a0, a1, a2, a3, a4, a5], _ => exact ⟨a0, a1, a2, a3, a4, a5, rfl⟩

/-- The string `idOf` depends on the entropy vector only through the digits
below the most significant one. -/
theorem idOf_congr (tl now : Nat) (l1 l2 : List Int)
    (h : l1.take (l1.length - 1) = l2.take (l2.length - 1)) :
    idOf tl now l1 = idOf tl now l2 := by
  simp only [idOf, List.drop_reverse, h]

/-- Claim C18 (actual ID layout).  For a state with timestamp width `tw`, six
entropy digits in `[0, 64)` and a call whose bucket `ts` is non-negative, the
call returns an ID of `tw + 6` characters whose first `tw + 1` characters are the
base-64 digits of `ts mod 64 ^ (tw + 1)`, most significant first, mapped through
`pushChars`, and whose last five characters are `pushChars[last[4]]`, ...,
`pushChars[last[0]]` for the entropy vector after the call; the digit `last[5]`
has no influence: the state with another digit in its place returns the same ID. -/
theorem c18_actual_layout (pg : PushGenerator) (clock ts : Int) (hw : WellFormed pg)
    (h6 : pg._lastLength = 6) (hb : bucket pg clock = some ts) (h0 : 0 ≤ ts) :
    ∃ id pg', Generate pg clock = some (id, pg') ∧
      id.length = pg._timeLength.toNat + 6 ∧
      (∀ j, j ≤ pg._timeLength.toNat →
        id[j]? = pushChars.data[ts.toNat % 64 ^ (pg._timeLength.toNat + 1)
          / 64 ^ (pg._timeLength.toNat - j) % 64]?) ∧
      (∀ i, i < 5 → ∃ d, pg'.last[i]? = some d ∧ 0 ≤ d ∧ d < 64 ∧
        id[pg._timeLength.toNat + 5 - i]? = pushChars.data[d.toNat]?) ∧
      (∀ x : Int, 0 ≤ x → x < 64 →
        ∃ pg2, Generate { pg with last := pg.last.set 5 x } clock = some (id, pg2)) := by
  have hlen : pg.last.length = 6 := by have := hw.last_len; omega
  have hnl : (nextLast pg ts).length = 6 := by rw [nextLast_length, hlen]
  have hnd := nextLast_digitsOk pg ts hw.digits
  refine ⟨_, _, Generate_spec pg clock ts hw hb h0, ?_, ?_, ?_, ?_⟩
  · simp only [idOf, List.length_append, List.length_map, beDigits_length, List.length_drop,
      List.length_reverse, hnl]
  · intro j hj
    simp only [idOf]
    rw [List.getElem?_append_left (by simp [beDigits_length]; omega), List.getElem?_map,
      beDigits_getElem _ _ _ (by omega), Option.map_some',
      pushChars_getElem _ (Nat.mod_lt _ (by decide)), digit_mod _ _ _ (by omega),
      Nat.add_sub_cancel]
  · intro i hi
    obtain ⟨b0, b1, b2, b3, b4, b5, hL⟩ := length_six _ hnl
    have hmem : ∀ d ∈ [b0, b1, b2, b3, b4], 0 ≤ d ∧ d < 64 := by
      intro d hd
      apply hnd d
      rw [hL]
      simp only [List.mem_cons, List.mem_singleton, List.not_mem_nil, or_false] at hd ⊢
      tauto
    have hget : ∀ d : Int, 0 ≤ d → d < 64 → pushChars.data[d.toNat]? = some (pushChar d.toNat) :=
      fun d h1 h2 => pushChars_getElem _ (by omega)
    simp only [idOf, hL]
    rw [List.getElem?_append_right (by simp [beDigits_length]; omega)]
    simp only [List.length_map, beDigits_length]
    have hi5 : i = 0 ∨ i = 1 ∨ i = 2 ∨ i = 3 ∨ i = 4 := by omega
    rcases hi5 with rfl | rfl | rfl | rfl | rfl
    · refine ⟨b0, rfl, (hmem b0 (by simp)).1, (hmem b0 (by simp)).2, ?_⟩
      rw [hget b0 (hmem b0 (by simp)).1 (hmem b0 (by simp)).2,
        show pg._timeLength.toNat + 5 - 0 - (pg._timeLength.toNat + 1) = 4 by omega]
      rfl
    · refine ⟨b1, rfl, (hmem b1 (by simp)).1, (hmem b1 (by simp)).2, ?_⟩
      rw [hget b1 (hmem b1 (by simp)).1 (hmem b1 (by simp)).2,
        show pg._timeLength.toNat + 5 - 1 - (pg._timeLength.toNat + 1) = 3 by omega]
      rfl
    · refine ⟨b2, rfl, (hmem b2 (by simp)).1, (hmem b2 (by simp)).2, ?_⟩
      rw [hget b2 (hmem b2 (by simp)).1 (hmem b2 (by simp)).2,
        show pg._timeLength.toNat + 5 - 2 - (pg._timeLength.toNat + 1) = 2 by omega]
      rfl
    · refine ⟨b3, rfl, (hmem b3 (by simp)).1, (hmem b3 (by simp)).2, ?_⟩
      rw [hget b3 (hmem b3 (by simp)).1 (hmem b3 (by simp)).2,
        show pg._timeLength.toNat + 5 - 3 - (pg._timeLength.toNat + 1) = 1 by omega]
      rfl
    · refine ⟨b4, rfl, (hmem b4 (by simp)).1, (hmem b4 (by simp)).2, ?_⟩
      rw [hget b4 (hmem b4 (by simp)).1 (hmem b4 (by simp)).2,
        show pg._timeLength.toNat + 5 - 4 - (pg._timeLength.toNat + 1) = 0 by omega]
      rfl
  · intro x hx0 hx1
    obtain ⟨a0, a1, a2, a3, a4, a5, hL⟩ := length_six _ hlen
    have hset : pg.last.set 5 x = [a0, a1, a2, a3, a4] ++ [x] := by rw [hL]; rfl
    have hold : pg.last = [a0, a1, a2, a3, a4] ++ [a5] := by rw [hL]; rfl
    have hw2 : WellFormed { pg with last := pg.last.set 5 x } :=
      { time_nonneg := hw.time_nonneg
        last_pos := hw.last_pos
        last_len := by
          show (((pg.last.set 5 x).length : Nat) : Int) = pg._lastLength
          rw [List.length_set]; exact hw.last_len
        digits := by
          intro d hd
          rcases List.mem_or_eq_of_mem_set hd with h | h
          · exact hw.digits d h
          · subst h; exact ⟨hx0, hx1⟩ }
    have hb2 : bucket { pg with last := pg.last.set 5 x } clock = some ts := hb
    have hid : idOf pg._timeLength.toNat ts.toNat
        (nextLast { pg with last := pg.last.set 5 x } ts)
        = idOf pg._timeLength.toNat ts.toNat (nextLast pg ts) := by
      apply idOf_congr
      have h1 := nextLast_length { pg with last := pg.last.set 5 x } ts
      have h2 : (pg.last.set 5 x).length = 6 := by rw [List.length_set]; exact hlen
      simp only at h1
      rw [h1, h2, hnl]
      unfold nextLast
      simp only
      split
      · have e1 := incList_snoc_take [a0, a1, a2, a3, a4] x
        have e2 := incList_snoc_take [a0, a1, a2, a3, a4] a5
        simp only [List.length_cons, List.length_nil] at e1 e2
        rw [hset, hold]
        exact e1.trans e2.symm
      · rw [hset, hold]; rfl
    refine ⟨{ pg with stamp := ts, last := nextLast { pg with last := pg.last.set 5 x } ts },
      (Generate_spec _ clock ts hw2 hb2 h0).trans ?_⟩
    rw [← hid]

/-- Witness of `c18_actual_layout`: the sample generator called one millisecond
after the sample clock reading returns `--OAqkdF0zzzzz`, and so does the state
holding 33 in place of the most significant digit 0. -/
theorem c18_actual_layout_witness :
    Generate sampleCarry (sampleClock + 1)
      = some ("--OAqkdF0zzzzz".data, { sampleCarry with stamp := sampleClock + 1 }) ∧
    (Generate { sampleCarry with last := [63, 63, 63, 63, 63, 33] } (sampleClock + 1)).map Prod.fst
      = some "--OAqkdF0zzzzz".data ∧
    ∃ id pg', Generate sampleCarry (sampleClock + 1) = some (id, pg') ∧
      id.length = sampleCarry._timeLength.toNat + 6 ∧
      (∀ j, j ≤ sampleCarry._timeLength.toNat →
        id[j]? = pushChars.data[(sampleClock + 1).toNat % 64 ^ (sampleCarry._timeLength.toNat + 1)
          / 64 ^ (sampleCarry._timeLength.toNat - j) % 64]?) ∧
      (∀ i, i < 5 → ∃ d, pg'.last[i]? = some d ∧ 0 ≤ d ∧ d < 64 ∧
        id[sampleCarry._timeLength.toNat + 5 - i]? = pushChars.data[d.toNat]?) ∧
      (∀ x : Int, 0 ≤ x → x < 64 →
        ∃ pg2, Generate { sampleCarry with last := sampleCarry.last.set 5 x } (sampleClock + 1)
          = some (id, pg2)) :=
  ⟨by decide, by decide,
    c18_actual_layout sampleCarry (sampleClock + 1) (sampleClock + 1) sampleCarry_wellFormed
      (by decide) (by decide) (by decide)⟩

/-! ## Same-bucket order and uniqueness on five digits -/

theorem bucket_congr {pg pg' : PushGenerator} (h : pg'.ret = pg.ret) (t : Int) :
    bucket pg' t = bucket pg t := by
  unfold bucket; rw [h]

theorem pushChar_inj {a b : Nat} (ha : a < 64) (hb : b < 64) (h : pushChar a = pushChar b) :
    a = b := by
  rcases Nat.lt_trichotomy a b with hab | hab | hab
  · exact absurd (h ▸ pushChar_lt hab hb) (lt_irrefl _)
  · exact hab
  · exact absurd (h ▸ pushChar_lt hab ha) (lt_irrefl _)

theorem map_pushChar_inj : ∀ (l1 l2 : List Int), DigitsOk l1 → DigitsOk l2 →
    l1.map (fun d => pushChar d.toNat) = l2.map (fun d => pushChar d.toNat) → l1 = l2
  | [], [], _, _, _ => rfl
  | [], _ :: _, _, _, h => by simp at h
  | _ :: _, [], _, _, h => by simp at h
  | d1 :: l1, d2 :: l2, h1, h2, h => by
    simp only [List.map_cons, List.cons.injEq] at h
    have r1 := h1 d1 (by simp)
    have r2 := h2 d2 (by simp)
    have hd := pushChar_inj (by omega) (by omega) h.1
    have hl := map_pushChar_inj l1 l2 (fun e he => h1 e (by simp [he]))
      (fun e he => h2 e (by simp [he])) h.2
    rw [hl, show d1 = d2 by omega]

theorem leVal_ofVal : ∀ (n v : Nat), leVal (ofVal n v) = ((v % 64 ^ n : Nat) : Int)
  | 0, v => by simp [ofVal, leVal, Nat.mod_one]
  | n + 1, v => by
    have key : v % 64 ^ (n + 1) = v % 64 + 64 * (v / 64 % 64 ^ n) := by
      rw [pow_succ, Nat.mul_comm (64 ^ n) 64, Nat.mod_mul]
    simp only [ofVal, leVal, leVal_ofVal n]
    rw [key]
    push_cast
    rfl

theorem ofVal_leVal : ∀ (l : List Int), DigitsOk l → ofVal l.length (leVal l).toNat = l
  | [], _ => rfl
  | d :: ds, h => by
    have hd : 0 ≤ d ∧ d < 64 := h d (by simp)
    have ht : DigitsOk ds := fun e he => h e (by simp [he])
    have hb := leVal_bounds ds ht
    have ih := ofVal_leVal ds ht
    simp only [leVal, List.length_cons, ofVal]
    have h1 : ((d + 64 * leVal ds).toNat % 64 : Nat) = d.toNat := by omega
    have h2 : (d + 64 * leVal ds).toNat / 64 = (leVal ds).toNat := by omega
    rw [h1, h2, ih, Int.toNat_of_nonneg hd.1]

/-- Two digit vectors of width `n` are equal only for values that agree modulo
`64 ^ n`. -/
theorem ofVal_inj_mod {n v w : Nat} (h : ofVal n v = ofVal n w) : v % 64 ^ n = w % 64 ^ n := by
  have := congrArg leVal h
  rw [leVal_ofVal, leVal_ofVal] at this
  exact_mod_cast this

theorem incList_append_of_not_all63 : ∀ (lo hi : List Int), DigitsOk lo →
    ¬ (∀ d ∈ lo, d = 63) → incList (lo ++ hi) = incList lo ++ hi
  | [], _, _, h => absurd (fun _ hd => by cases hd) h
  | d :: ds, hi, hd, h => by
    have r := hd d (by simp)
    simp only [List.cons_append, incList]
    split
    · rfl
    · have h63 : d = 63 := by omega
      have hds : ¬ (∀ e ∈ ds, e = 63) := by
        intro hall
        apply h
        intro e he
        rcases List.mem_cons.mp he with rfl | he
        · exact h63
        · exact hall e he
      rw [List.append_eq, incList_append_of_not_all63 ds hi (fun e he => hd e (by simp [he])) hds]
      rfl

/-- Without a carry out of the vector, the increment makes the digit string,
most significant digit first, strictly greater. -/
theorem lex_incList : ∀ (lo : List Int), DigitsOk lo → ¬ (∀ d ∈ lo, d = 63) →
    List.Lex (· < ·) (lo.reverse.map (fun d => pushChar d.toNat))
      ((incList lo).reverse.map (fun d => pushChar d.toNat))
  | [], _, h => absurd (fun _ hd => by cases hd) h
  | d :: ds, hd, h => by
    have r := hd d (by simp)
    simp only [incList]
    split
    · simp only [List.reverse_cons, List.map_append, List.map_cons, List.map_nil]
      exact List.Lex.append_left _ (List.Lex.rel (pushChar_lt (by omega) (by omega))) _
    · have h63 : d = 63 := by omega
      have hds : ¬ (∀ e ∈ ds, e = 63) := by
        intro hall
        apply h
        intro e he
        rcases List.mem_cons.mp he with rfl | he
        · exact h63
        · exact hall e he
      simp only [List.reverse_cons, List.map_append, List.map_cons, List.map_nil]
      exact lex_append_of_length_eq _ _
        (lex_incList ds (fun e he => hd e (by simp [he])) hds)
        (by simp [incList_length])

/-- The IDs of a run of calls whose clock readings all fall into the bucket
`b`, made on a state whose stored bucket is `b` and whose entropy vector has
the value `v`. -/
theorem generateAll_bucket_run (b : Int) (h0 : 0 ≤ b) : ∀ (ts : List Int) (v : Nat)
    (pg : PushGenerator), WellFormed pg → (∀ t ∈ ts, bucket pg t = some b) → pg.stamp = b →
    pg.last = ofVal pg.last.length v →
    generateAll pg ts
      = some ((List.range ts.length).map
            (fun k => idOf pg._timeLength.toNat b.toNat (ofVal pg.last.length (v + k + 1))),
          { pg with last := ofVal pg.last.length (v + ts.length) })
  | [], v, pg, _, _, _, hl => by
    simp only [generateAll, List.length_nil, List.range_zero, List.map_nil, Nat.add_zero,
      Option.some.injEq, Prod.mk.injEq, true_and]
    rw [← hl]
  | t :: ts, v, pg, hw, hb, hs, hl => by
    have hbt : bucket pg t = some b := hb t (by simp)
    have hnl : nextLast pg b = ofVal pg.last.length (v + 1) := by
      unfold nextLast
      rw [if_pos hs, hl, incList_ofVal, ofVal_length]
    have hg := Generate_spec pg t b hw hbt h0
    rw [hnl] at hg
    have hw1 := WellFormed_next hw b
    rw [hnl] at hw1
    have ih1 := generateAll_bucket_run b h0 ts (v + 1)
      { pg with stamp := b, last := ofVal pg.last.length (v + 1) } hw1
      (fun u hu => hb u (by simp [hu])) rfl (by simp only [ofVal_length])
    simp only [ofVal_length] at ih1
    simp only [generateAll, hg, ih1, Option.bind_eq_bind, Option.some_bind, List.length_cons,
      List.range_succ_eq_map, List.map_cons, List.map_map, Option.some.injEq, Prod.mk.injEq,
      List.cons.injEq]
    refine ⟨⟨trivial, ?_⟩, ?_⟩
    · apply List.map_congr_left
      intro k _
      simp only [Function.comp, Nat.succ_eq_add_one]
      rw [show v + 1 + k + 1 = v + (k + 1) + 1 by omega]
    · rw [show v + 1 + ts.length = v + (ts.length + 1) by omega, ← hs]

/-- Two IDs built from six-digit entropy vectors are equal only when the values
of the vectors agree modulo `64 ^ 5`. -/
theorem idOf_ofVal_inj (tl now w1 w2 : Nat)
    (h : idOf tl now (ofVal 6 w1) = idOf tl now (ofVal 6 w2)) : w1 % 64 ^ 5 = w2 % 64 ^ 5 := by
  simp only [idOf, ofVal_succ_snoc 5, List.reverse_append, List.reverse_singleton,
    List.singleton_append, List.drop_succ_cons, List.drop_zero, List.append_cancel_left_eq,
    List.map_reverse, List.reverse_inj] at h
  exact ofVal_inj_mod (map_pushChar_inj _ _ (ofVal_digitsOk 5 w1) (ofVal_digitsOk 5 w2) h)

theorem nodup_ids (tl now n : Nat) (g : Nat → Nat)
    (hg : ∀ k1 k2, k1 < n → k2 < n → g k1 % 64 ^ 5 = g k2 % 64 ^ 5 → k1 = k2) :
    ((List.range n).map (fun k => idOf tl now (ofVal 6 (g k)))).Nodup := by
  apply List.Nodup.map_on _ (List.nodup_range n)
  intro k1 h1 k2 h2 h
  exact hg k1 k2 (List.mem_range.mp h1) (List.mem_range.mp h2) (idOf_ofVal_inj _ _ _ _ h)

/-- Claim C19 (same-bucket monotonicity as implemented).  For a state with six
entropy digits in `[0, 64)`: of two consecutive calls at non-negative clock
readings that fall into one bucket the second returns a strictly greater ID,
provided the five least significant entropy digits held before the second call
are not all 63; and every run of at most `64 ^ 5` consecutive calls at
non-negative clock readings of one bucket returns pairwise distinct IDs. -/
theorem c19_same_bucket_as_implemented (pg : PushGenerator) (hw : WellFormed pg)
    (h6 : pg._lastLength = 6) :
    (∀ (c1 c2 b : Int) (id1 id2 : List Char) (pg1 pg2 : PushGenerator), 0 ≤ c1 → 0 ≤ c2 →
      bucket pg c1 = some b → bucket pg1 c2 = some b →
      Generate pg c1 = some (id1, pg1) → Generate pg1 c2 = some (id2, pg2) →
      ¬ (∀ d ∈ pg1.last.take 5, d = 63) → List.Lex (· < ·) id1 id2) ∧
    (∀ (ts : List Int) (b : Int), (∀ t ∈ ts, 0 ≤ t ∧ bucket pg t = some b) →
      ts.length ≤ 64 ^ 5 →
      ∃ ids pg', generateAll pg ts = some (ids, pg') ∧ ids.length = ts.length ∧ ids.Nodup) := by
  have hlen : pg.last.length = 6 := by have := hw.last_len; omega
  constructor
  · intro c1 c2 b id1 id2 pg1 pg2 hc1 _ hb1 hb2 h1 h2 hn
    have hb0 : 0 ≤ b := bucket_nonneg hc1 hb1
    rw [Generate_spec pg c1 b hw hb1 hb0] at h1
    simp only [Option.some.injEq, Prod.mk.injEq] at h1
    obtain ⟨rfl, rfl⟩ := h1
    rw [Generate_spec _ c2 b (WellFormed_next hw b) hb2 hb0] at h2
    simp only [Option.some.injEq, Prod.mk.injEq] at h2
    obtain ⟨rfl, _⟩ := h2
    have hnl : (nextLast pg b).length = 6 := by rw [nextLast_length, hlen]
    have hnd := nextLast_digitsOk pg b hw.digits
    have hnext : nextLast { pg with stamp := b, last := nextLast pg b } b
        = incList (nextLast pg b) := by simp [nextLast]
    simp only at hn
    rw [hnext]
    generalize nextLast pg b = L at hnl hnd hn
    obtain ⟨a0, a1, a2, a3, a4, a5, rfl⟩ := length_six L hnl
    have hsplit : [a0, a1, a2, a3, a4, a5] = [a0, a1, a2, a3, a4] ++ [a5] := rfl
    have hlo : DigitsOk [a0, a1, a2, a3, a4] := by
      intro d hd
      apply hnd d
      simp only [List.mem_cons, List.mem_singleton, List.not_mem_nil, or_false] at hd ⊢
      tauto
    have hn5 : ¬ (∀ d ∈ [a0, a1, a2, a3, a4], d = 63) := hn
    rw [hsplit, incList_append_of_not_all63 _ _ hlo hn5]
    simp only [idOf, List.reverse_append, List.reverse_singleton, List.singleton_append,
      List.drop_succ_cons, List.drop_zero]
    exact List.Lex.append_left _ (lex_incList _ hlo hn5) _
  · intro ts b hts hn
    cases ts with
    | nil => exact ⟨[], pg, rfl, rfl, List.nodup_nil⟩
    | cons t ts =>
      have hb0 : 0 ≤ b := bucket_nonneg (hts t (by simp)).1 (hts t (by simp)).2
      have hl : pg.last = ofVal pg.last.length (leVal pg.last).toNat :=
        (ofVal_leVal pg.last hw.digits).symm
      simp only [List.length_cons] at hn
      by_cases hs : pg.stamp = b
      · have hrun := generateAll_bucket_run b hb0 (t :: ts) _ pg hw (fun u hu => (hts u hu).2) hs hl
        rw [hlen] at hrun
        refine ⟨_, _, hrun, by simp, ?_⟩
        exact nodup_ids _ _ _ (fun k => (leVal pg.last).toNat + k + 1)
          (fun k1 k2 h1 h2 h => by
            simp only [List.length_cons] at h1 h2
            dsimp only at h
            omega)
      · have hbt : bucket pg t = some b := (hts t (by simp)).2
        have hnl : nextLast pg b = pg.last := by unfold nextLast; rw [if_neg hs]
        have hg := Generate_spec pg t b hw hbt hb0
        rw [hnl] at hg
        have hw1 : WellFormed { pg with stamp := b, last := pg.last } := by
          have := WellFormed_next hw b
          rw [hnl] at this
          exact this
        have hrun := generateAll_bucket_run b hb0 ts (leVal pg.last).toNat
          { pg with stamp := b, last := pg.last } hw1 (fun u hu => (hts u (by simp [hu])).2) rfl hl
        simp only [hlen] at hrun
        have hfirst : idOf pg._timeLength.toNat b.toNat pg.last
            = idOf pg._timeLength.toNat b.toNat (ofVal 6 ((leVal pg.last).toNat + 0)) := by
          rw [Nat.add_zero, ← hlen, ← hl]
        have hall : generateAll pg (t :: ts)
            = some ((List.range (ts.length + 1)).map
                (fun k => idOf pg._timeLength.toNat b.toNat
                  (ofVal 6 ((leVal pg.last).toNat + k))),
              { pg with stamp := b, last := ofVal 6 ((leVal pg.last).toNat + ts.length) }) := by
          simp only [generateAll, hg, hrun, Option.bind_eq_bind, Option.some_bind,
            List.range_succ_eq_map, List.map_cons, List.map_map, hfirst]
          rfl
        refine ⟨_, _, hall, by simp, ?_⟩
        exact nodup_ids _ _ _ (fun k => (leVal pg.last).toNat + k)
          (fun k1 k2 h1 h2 h => by
            dsimp only at h
            omega)

/-- Witness of `c19_same_bucket_as_implemented`: the sample generator whose
stored bucket is the sample clock reading, called two and three times at that
reading. -/
theorem c19_same_bucket_as_implemented_witness :
    Generate sampleZero sampleClock
      = some ("--OAqkdF-----0".data, { sampleZero with last := [1, 0, 0, 0, 0, 0] }) ∧
    Generate { sampleZero with last := [1, 0, 0, 0, 0, 0] } sampleClock
      = some ("--OAqkdF-----1".data, { sampleZero with last := [2, 0, 0, 0, 0, 0] }) ∧
    List.Lex (· < ·) "--OAqkdF-----0".data "--OAqkdF-----1".data ∧
    ∃ ids pg', generateAll sampleZero [sampleClock, sampleClock, sampleClock] = some (ids, pg') ∧
      ids.length = [sampleClock, sampleClock, sampleClock].length ∧ ids.Nodup :=
  ⟨by decide, by decide,
    (c19_same_bucket_as_implemented sampleZero
      ⟨by decide, by decide, by decide, by unfold DigitsOk; decide⟩ (by decide)).1
      sampleClock sampleClock sampleClock "--OAqkdF-----0".data "--OAqkdF-----1".data
      { sampleZero with last := [1, 0, 0, 0, 0, 0] } { sampleZero with last := [2, 0, 0, 0, 0, 0] }
      (by decide) (by decide) (by decide) (by decide) (by decide) (by decide) (by decide),
    (c19_same_bucket_as_implemented sampleZero
      ⟨by decide, by decide, by decide, by unfold DigitsOk; decide⟩ (by decide)).2
      [sampleClock, sampleClock, sampleClock] sampleClock (by decide) (by decide)⟩

/-! ## The width computed for a retention -/

theorem lex_ne {a b : List Char} (h : List.Lex (· < ·) a b) : a ≠ b :=
  List.Lex.to_ne (List.Lex.imp (fun _ _ hlt => ne_of_lt hlt) _ _ h)

/-- Distinct numbers below `64 ^ k` have distinct `k`-digit strings. -/
theorem beDigits_map_ne (k a b : Nat) (ha : a < 64 ^ k) (hb : b < 64 ^ k) (hab : a ≠ b) :
    (beDigits k a).map pushChar ≠ (beDigits k b).map pushChar := by
  rcases Nat.lt_or_gt_of_ne hab with h | h
  · exact lex_ne (lex_map_pushChar (beDigits_lex k a b h hb) (beDigits_lt _ _))
  · exact (lex_ne (lex_map_pushChar (beDigits_lex k b a h ha) (beDigits_lt _ _))).symm

/-- For a non-negative numerator Go's truncating division is the floor. -/
theorem Milliseconds_lt (dur : Int) (hd : 1 ≤ Milliseconds dur) (h : dur < 2 ^ 63) :
    0 ≤ dur ∧ Milliseconds dur < 2 ^ 63 := by
  have h0 : 0 ≤ dur := by
    by_contra hneg
    have hn : 0 ≤ -dur := by omega
    have h1 : Int.tdiv (-(-dur)) 1000000 = -(Int.tdiv (-dur) 1000000) := Int.neg_tdiv _ _
    rw [neg_neg] at h1
    have h2 : 0 ≤ Int.tdiv (-dur) 1000000 := Int.tdiv_nonneg hn (by decide)
    unfold Milliseconds at hd
    omega
  refine ⟨h0, ?_⟩
  unfold Milliseconds
  rw [Int.tdiv_eq_ediv h0 (by decide)]
  omega

/-- A width that is the floor of a sixth of a number within one of the exact
binary logarithm leaves room for every wrapped bucket in `tw + 1` digits. -/
theorem retention_fits (ms : Nat) (c : Int) (hc : 0 ≤ c) (h : (Nat.clog 2 ms : Int) ≤ c + 1) :
    ms ≤ 64 ^ ((c / 6).toNat + 1) := by
  have h1 : ms ≤ 2 ^ Nat.clog 2 ms := Nat.le_pow_clog (by decide) ms
  have h2 : Nat.clog 2 ms ≤ 6 * ((c / 6).toNat + 1) := by omega
  have h3 : 2 ^ Nat.clog 2 ms ≤ 2 ^ (6 * ((c / 6).toNat + 1)) :=
    Nat.pow_le_pow_right (by decide) h2
  have h4 : (2 : Nat) ^ (6 * ((c / 6).toNat + 1)) = 64 ^ ((c / 6).toNat + 1) := by
    rw [pow_mul]; rfl
  omega

/-- Claim C20 as stated fails on the code: the width is not the floor of a
sixth of the exact ceiling logarithm.  For the retention of `2 ^ 29` ms the
exact logarithm is 29 and `floor(29 / 6) = 4`, but the `float64` quotient
`math.Log(536870912) / math.Log(2)` is a little above 29, its ceiling is 30,
and the constructor stores the width `30 / 6 = 5`. -/
theorem c20_width_not_exact_log :
    Milliseconds binaryNanos = 2 ^ 29 ∧
    Nat.clog 2 (Milliseconds binaryNanos).toNat = 29 ∧
    ((Nat.clog 2 (Milliseconds binaryNanos).toNat / 6 : Nat) : Int) = 4 ∧
    ceilLog2 (Milliseconds binaryNanos) = 30 ∧
    (NewPushGenerator none (some binaryNanos) 0 (fun _ _ => 0))._timeLength = 5 ∧
    timeLengthOf (some binaryNanos)
      ≠ ((Nat.clog 2 (Milliseconds binaryNanos).toNat / 6 : Nat) : Int) := by
  have hms : Milliseconds binaryNanos = 2 ^ 29 := by decide
  have hnat : (Milliseconds binaryNanos).toNat = 2 ^ 29 := by rw [hms]; rfl
  have hclog : Nat.clog 2 (Milliseconds binaryNanos).toNat = 29 := by
    rw [hnat]; exact Nat.clog_pow 2 29 (by decide)
  have hc : ceilLog2 (Milliseconds binaryNanos) = 30 := by
    rw [hms]; exact ceilLog2_two_pow_29
  have htl : timeLengthOf (some binaryNanos) = 5 := timeLengthOf_binary
  refine ⟨hms, hclog, by rw [hclog]; rfl, hc, ?_, ?_⟩
  · rw [NewPushGenerator_timeLength]
    exact htl
  · rw [htl, hclog]
    decide

/-- Claim C20 (wrapped timestamps fit), amended.  For a retention of `d ≥ 1`
whole milliseconds (the duration an `int64` number of nanoseconds) the
constructor's width is `tw = floor(c / 6)`, where `c` is the `float64` value
`int(math.Ceil(math.Log(d) / math.Log(2)))`; `c` is within one of the exact
ceiling logarithm `clog2 d`, and `d ≤ 64 ^ (tw + 1)`; hence every wrapped bucket
of a non-negative clock reading lies in `[0, d)`, is not truncated by the
`tw + 1` base-64 digits `Generate` writes, and two calls with distinct buckets
return IDs with distinct leading `tw + 1` characters. -/
theorem c20_wrapped_timestamps_fit (dur : Int) (hd : 1 ≤ Milliseconds dur) (h64 : dur < 2 ^ 63) :
    0 ≤ ceilLog2 (Milliseconds dur) ∧
    timeLengthOf (some dur) = ceilLog2 (Milliseconds dur) / 6 ∧
    (Nat.clog 2 (Milliseconds dur).toNat : Int) ≤ ceilLog2 (Milliseconds dur) + 1 ∧
    ceilLog2 (Milliseconds dur) ≤ (Nat.clog 2 (Milliseconds dur).toNat : Int) + 1 ∧
    (Milliseconds dur).toNat ≤ 64 ^ ((timeLengthOf (some dur)).toNat + 1) ∧
    ∀ (pg pg2 : PushGenerator) (t1 t2 b1 b2 : Int), WellFormed pg → WellFormed pg2 →
      pg.ret = some dur → pg2.ret = some dur →
      pg._timeLength = timeLengthOf (some dur) → pg2._timeLength = timeLengthOf (some dur) →
      0 ≤ t1 → 0 ≤ t2 → bucket pg t1 = some b1 → bucket pg2 t2 = some b2 →
      0 ≤ b1 ∧ b1 < Milliseconds dur ∧
      b1.toNat % 64 ^ ((timeLengthOf (some dur)).toNat + 1) = b1.toNat ∧
      (b1 ≠ b2 → ∃ id1 pg1 id2 pg3, Generate pg t1 = some (id1, pg1) ∧
        Generate pg2 t2 = some (id2, pg3) ∧
        id1.take ((timeLengthOf (some dur)).toNat + 1)
          ≠ id2.take ((timeLengthOf (some dur)).toNat + 1)) := by
  have hc0 := ceilLog2_nonneg (Milliseconds dur) hd
  have hcl := ceilLog2_clog (Milliseconds dur) hd (Milliseconds_lt dur hd h64).2
  have htl : timeLengthOf (some dur) = ceilLog2 (Milliseconds dur) / 6 :=
    Int.tdiv_eq_ediv hc0 (by decide)
  have hfit : (Milliseconds dur).toNat ≤ 64 ^ ((timeLengthOf (some dur)).toNat + 1) := by
    rw [htl]
    exact retention_fits _ _ hc0 hcl.1
  refine ⟨hc0, htl, hcl.1, hcl.2, hfit, ?_⟩
  intro pg pg2 t1 t2 b1 b2 hw hw2 hr hr2 hT hT2 ht1 ht2 hb1 hb2
  have hne : Milliseconds dur ≠ 0 := by omega
  have bound : ∀ (q : PushGenerator) (t b : Int), q.ret = some dur → 0 ≤ t →
      bucket q t = some b → 0 ≤ b ∧ b < Milliseconds dur := by
    intro q t b hq ht hb
    simp only [bucket, hq, if_neg hne, Option.some.injEq] at hb
    subst hb
    exact ⟨Int.tmod_nonneg _ ht, Int.tmod_lt_of_pos _ (by omega)⟩
  obtain ⟨h10, h11⟩ := bound pg t1 b1 hr ht1 hb1
  obtain ⟨h20, h21⟩ := bound pg2 t2 b2 hr2 ht2 hb2
  have hlt1 : b1.toNat < 64 ^ ((timeLengthOf (some dur)).toNat + 1) := by omega
  have hlt2 : b2.toNat < 64 ^ ((timeLengthOf (some dur)).toNat + 1) := by omega
  refine ⟨h10, h11, Nat.mod_eq_of_lt hlt1, ?_⟩
  intro hb
  refine ⟨_, _, _, _, Generate_spec pg t1 b1 hw hb1 h10, Generate_spec pg2 t2 b2 hw2 hb2 h20, ?_⟩
  rw [hT, hT2]
  simp only [idOf]
  rw [List.take_left' (by simp [beDigits_length]), List.take_left' (by simp [beDigits_length])]
  exact beDigits_map_ne _ _ _ hlt1 hlt2 (by omega)

/-- Witness of `c20_wrapped_timestamps_fit`: for the retention of `2 ^ 29` ms
the `float64` value is 30, one above the exact logarithm 29, the width is 5 and
`2 ^ 29 ≤ 64 ^ 6`. -/
theorem c20_wrapped_timestamps_fit_witness :
    (1 : Int) ≤ Milliseconds binaryNanos ∧ binaryNanos < 2 ^ 63 ∧
    timeLengthOf (some binaryNanos) = ceilLog2 (Milliseconds binaryNanos) / 6 ∧
    ceilLog2 (Milliseconds binaryNanos)
      ≤ (Nat.clog 2 (Milliseconds binaryNanos).toNat : Int) + 1 ∧
    (Milliseconds binaryNanos).toNat ≤ 64 ^ ((timeLengthOf (some binaryNanos)).toNat + 1) :=
  ⟨by decide, by decide,
    (c20_wrapped_timestamps_fit binaryNanos (by decide) (by decide)).2.1,
    (c20_wrapped_timestamps_fit binaryNanos (by decide) (by decide)).2.2.2.1,
    (c20_wrapped_timestamps_fit binaryNanos (by decide) (by decide)).2.2.2.2.1⟩

end Stringid
